import Mathlib

/-!
Verification development for the OverwriteSQL (`owsql`) trust-tagging and
rewrite pipeline.  The definitions below are a shallow embedding of the Rust
sources (`src/bidimap.rs`, `src/parser.rs`, `src/connection.rs`, `src/row.rs`).
Strings are modelled as lists of characters; the per-connection random
placeholder minter (`overwrite_new`, whose module is not part of the sources)
is modelled as an abstract function `Nat → Str` seeded by the serial counter.
Loops are written with an explicit fuel argument that bounds the number of
iterations; every loop of the source consumes at least one input character per
iteration, so the wrappers pass `input.length + 1` fuel and the out-of-fuel
branches are unreachable.
-/

deriving instance DecidableEq for Except

namespace Owsql

/-- Strings of the Rust source are modelled as lists of characters. -/
abbrev Str := List Char

/-- Convenience conversion from Lean string literals. -/
def str (s : String) : Str := s.data

/-- Every character of the string is non-whitespace. -/
def NonWs (w : Str) : Prop := ∀ c ∈ w, c.isWhitespace = false

/-- Every character of the string is whitespace. -/
def AllWs (u : Str) : Prop := ∀ c ∈ u, c.isWhitespace = true

instance (w : Str) : Decidable (NonWs w) := List.decidableBAll _ w

instance (u : Str) : Decidable (AllWs u) := List.decidableBAll _ u

/-- Error levels of the connection (`OwsqlErrorLevel`).  Modelled from the
spec: the `error` module is not among the given sources.  `Debug` is the
debug-build-only level. -/
inductive OwsqlErrorLevel
  | AlwaysOk
  | Release
  | Develop
  | Debug
deriving DecidableEq

/-- Error taxonomy (`OwsqlError`).  Modelled from the spec (§7): the `error`
module is not among the given sources.  `ErrUnit` models the empty `Err(())`
variant. -/
inductive OwsqlError
  | Code (i : Int)
  | Message (s : Str)
  | AnyError
  | ErrUnit
deriving DecidableEq

/-- Modelled from the spec: the factory `OwsqlError::new(level, kind, detail)`
(§7): `AlwaysOk` swallows the error, `Release` collapses to `AnyError`,
`Develop` records only the kind string, `Debug` records kind and detail. -/
def OwsqlError.new (lvl : OwsqlErrorLevel) (kind detail : Str) :
    Except OwsqlError Unit :=
  match lvl with
  | .AlwaysOk => .ok ()
  | .Release => .error .AnyError
  | .Develop => .error (.Message kind)
  | .Debug => .error (.Message (kind ++ str ": " ++ detail))

/-- `Result::err()`: the error of an `Except`, if any. -/
def exceptErr {ε α : Type} : Except ε α → Option ε
  | .error e => some e
  | .ok _ => none

/-- `Result::unwrap_or_default()` for string results: the payload, or the
empty string on error. -/
def exceptGetD {ε : Type} : Except ε Str → Str
  | .ok s => s
  | .error _ => []

/-! ### Association lists modelling `HashMap`

`HashMap` lookup and overwrite-on-insert semantics, modelled with association
lists whose keys stay pairwise distinct. -/

/-- `HashMap::get`: the value at the first (unique) occurrence of the key. -/
def assocLookup {α β : Type} [DecidableEq α] : List (α × β) → α → Option β
  | [], _ => none
  | (a, b) :: l, k => if a = k then some b else assocLookup l k

/-- Remove every binding of the given key. -/
def assocErase {α β : Type} [DecidableEq α] : List (α × β) → α → List (α × β)
  | [], _ => []
  | (a, b) :: l, k => if a = k then assocErase l k else (a, b) :: assocErase l k

/-- `HashMap::insert`: bind `k` to `v`, overwriting any previous binding. -/
def assocInsert {α β : Type} [DecidableEq α] (l : List (α × β)) (k : α) (v : β) :
    List (α × β) :=
  (k, v) :: assocErase l k

/-- The bidirectional registry of `src/bidimap.rs`: a forward and a reverse
`HashMap` behind one object. -/
structure BidiMap (α β : Type) where
  key_value : List (α × β)
  value_key : List (β × α)
deriving DecidableEq

namespace BidiMap

variable {α β : Type} [DecidableEq α] [DecidableEq β]

/-- `BidiMap::new()`. -/
def empty : BidiMap α β := ⟨[], []⟩

/-- `BidiMap::entry_or_insert`: insert into both directions, but only when the
forward side does not already contain the key.  (Note: the source checks only
`key_value.contains_key(&a)`; the reverse side is not consulted.) -/
def entryOrInsert (m : BidiMap α β) (a : α) (b : β) : BidiMap α β :=
  if (assocLookup m.key_value a).isSome then m
  else ⟨assocInsert m.key_value a b, assocInsert m.value_key b a⟩

/-- `BidiMap::get`. -/
def get (m : BidiMap α β) (a : α) : Option β := assocLookup m.key_value a

/-- `BidiMap::get_reverse`. -/
def getReverse (m : BidiMap α β) (b : β) : Option α := assocLookup m.value_key b

/-- `BidiMap::contain` (called from `connection.rs`; its body is not among the
given sources — modelled as a forward-side membership test, per the spec's
`contains(k)`). -/
def contain (m : BidiMap α β) (a : α) : Bool := (m.get a).isSome

/-- `BidiMap::contain_reverse` (called from `parser.rs`; its body is not among
the given sources — modelled as a reverse-side membership test, per the spec's
`contains_reverse(v)`). -/
def containReverse (m : BidiMap α β) (b : β) : Bool := (m.getReverse b).isSome

/-- `BidiMap::insert` (called from `connection.rs`; its body is not among the
given sources — modelled by the only insertion operation the source `bidimap.rs`
provides, `entry_or_insert`). -/
def insert (m : BidiMap α β) (a : α) (b : β) : BidiMap α β := m.entryOrInsert a b

end BidiMap

/-! ### Scanner (`Parser` of `src/parser.rs`)

The cursor over the input is modelled by the list of not-yet-consumed
characters.  Each primitive returns its result together with the remaining
input. -/

/-- The error built by `Parser::consume_while` on an empty match. -/
def consumeWhileErr (lvl : OwsqlErrorLevel) : OwsqlError :=
  match lvl with
  | .AlwaysOk | .Release => .AnyError
  | .Develop => .Message (str "error: consume_while()")
  | .Debug => .Message (str "error: consume_while(): empty")

/-- The error built by `Parser::consume_except_whitespace` on an empty match. -/
def consumeExceptWsErr (lvl : OwsqlErrorLevel) : OwsqlError :=
  match lvl with
  | .AlwaysOk | .Release => .AnyError
  | .Develop => .Message (str "error: consume_except_whitespace()")
  | .Debug => .Message (str "error: consume_except_whitespace(): empty")

/-- The error built by `Parser::consume_char` at end of input. -/
def consumeCharErr (lvl : OwsqlErrorLevel) : OwsqlError :=
  match lvl with
  | .AlwaysOk | .Release => .AnyError
  | .Develop => .Message (str "error: consume_char()")
  | .Debug => .Message (str "error: consume_char(): None")

/-- The error built by `Parser::consume_string` at end of input: the string
never terminated.  `acc` is the partial string (reported at `Debug` level). -/
def endlessErr (lvl : OwsqlErrorLevel) (acc : Str) : OwsqlError :=
  match lvl with
  | .AlwaysOk | .Release => .AnyError
  | .Develop => .Message (str "endless")
  | .Debug => .Message (str "endless: " ++ acc)

/-- The accumulation loop shared by `consume_while` and
`consume_except_whitespace`: the maximal prefix satisfying `f`, and the rest. -/
def consumeWhileAux (f : Char → Bool) : Str → Str × Str
  | [] => ([], [])
  | c :: cs =>
    if f c then
      let (s, r) := consumeWhileAux f cs
      (c :: s, r)
    else ([], c :: cs)

/-- `Parser::consume_while`: fails (consuming nothing) when no character
matched. -/
def consumeWhile (lvl : OwsqlErrorLevel) (f : Char → Bool) (cs : Str) :
    Except OwsqlError Str × Str :=
  let (s, r) := consumeWhileAux f cs
  if s = [] then (.error (consumeWhileErr lvl), cs) else (.ok s, r)

/-- `Parser::consume_whitespace`. -/
def consumeWhitespace (lvl : OwsqlErrorLevel) (cs : Str) :
    Except OwsqlError Str × Str :=
  consumeWhile lvl Char.isWhitespace cs

/-- `Parser::skip_whitespace().ok()`: only the cursor movement matters. -/
def skipWhitespace (lvl : OwsqlErrorLevel) (cs : Str) : Str :=
  (consumeWhile lvl Char.isWhitespace cs).2

/-- `Parser::consume_except_whitespace`: the maximal non-whitespace prefix;
fails (consuming nothing) when it is empty. -/
def consumeExceptWhitespace (lvl : OwsqlErrorLevel) (cs : Str) :
    Except OwsqlError Str × Str :=
  let (s, r) := consumeWhileAux (fun c => !c.isWhitespace) cs
  if s = [] then (.error (consumeExceptWsErr lvl), cs) else (.ok s, r)

/-- The loop of `Parser::consume_string`, entered after the opening quote has
been consumed; `acc` holds the consumed text (starting with the quote).  A
quote character is appended and terminates the string unless it is immediately
followed by another quote, in which case both are appended verbatim and the
scan continues. -/
def consumeStringLoop (lvl : OwsqlErrorLevel) (quote : Char) (acc : Str) :
    Str → Except OwsqlError Str × Str
  | [] => (.error (endlessErr lvl acc), [])
  | c :: rest =>
    if c = quote then
      match rest with
      | [] => (.ok (acc ++ [c]), [])
      | c2 :: rest2 =>
        if c2 = quote then consumeStringLoop lvl quote (acc ++ [c, c2]) rest2
        else (.ok (acc ++ [c]), rest)
    else consumeStringLoop lvl quote (acc ++ [c]) rest

/-- `Parser::consume_string(quote)`: starts `acc` with `quote`, consumes the
current character, then scans for an undoubled closing quote. -/
def consumeString (lvl : OwsqlErrorLevel) (quote : Char) (cs : Str) :
    Except OwsqlError Str × Str :=
  match cs with
  | [] => (.error (consumeCharErr lvl), [])
  | _ :: rest => consumeStringLoop lvl quote [quote] rest

/-! ### Literal validator (`check_valid_literal`) -/

/-- The loop of `check_valid_literal`: skip to the next quote character (the
result of that `consume_while` is discarded with `.ok()`), then consume a full
quoted string with `consume_string`; any unterminated string yields the
`"invalid literal"` error built from the error level and the whole fragment
`orig`.  The fuel bounds the iteration count; each iteration consumes at least
one character, so the out-of-fuel branch is unreachable for fuel
`orig.length + 1`. -/
def checkValidLiteralLoop (lvl : OwsqlErrorLevel) (orig : Str) :
    Nat → Str → Except OwsqlError Unit
  | 0, _ => .ok ()
  | _ + 1, [] => .ok ()
  | fuel + 1, c :: cs =>
    let r1 := (consumeWhile lvl (fun c => c != '"' && c != '\'') (c :: cs)).2
    match r1 with
    | '"' :: _ =>
      match consumeString lvl '"' r1 with
      | (.error _, _) => OwsqlError.new lvl (str "invalid literal") orig
      | (.ok _, r2) => checkValidLiteralLoop lvl orig fuel r2
    | '\'' :: _ =>
      match consumeString lvl '\'' r1 with
      | (.error _, _) => OwsqlError.new lvl (str "invalid literal") orig
      | (.ok _, r2) => checkValidLiteralLoop lvl orig fuel r2
    | _ => checkValidLiteralLoop lvl orig fuel r1

/-- `check_valid_literal(s, error_level)` of `src/parser.rs`. -/
def checkValidLiteral (s : Str) (lvl : OwsqlErrorLevel) :
    Except OwsqlError Unit :=
  checkValidLiteralLoop lvl s (s.length + 1) s

/-! ### Escaping helpers -/

/-- `escape_string(s, is_escape_char)`: double every character selected by the
dialect predicate. -/
def escapeString (isEscapeChar : Char → Bool) : Str → Str
  | [] => []
  | c :: cs =>
    (if isEscapeChar c then [c, c] else [c]) ++ escapeString isEscapeChar cs

/-- `escape_for_allowlist(value)`: wrap the value in single quotes and run
`consume_string('\'')` over it at the default error level (`Develop` in debug
builds), falling back to the empty string on error. -/
def escapeForAllowlist (value : Str) : Str :=
  exceptGetD (consumeString .Develop '\'' ('\'' :: value ++ ['\''])).1

/-! ### Tokenizer and rewriter -/

/-- `TokenType` (its module is not among the given sources; the variants and
the two methods are modelled from their uses in `src/parser.rs`). -/
inductive TokenType
  | Overwrite (s : Str)
  | ErrOverwrite (s : Str)
  | String (s : Str)
  | None
deriving DecidableEq

/-- `TokenType::unwrap`: the payload string.  In `convert_to_valid_syntax` it
is only ever reached on `String` tokens. -/
def TokenType.unwrap : TokenType → Str
  | .Overwrite s => s
  | .ErrOverwrite s => s
  | .String s => s
  | .None => []

/-- `TokenType::is_none`. -/
def TokenType.isNone : TokenType → Bool
  | .None => true
  | _ => false

/-- The inner `while let Ok(s) = parser.consume_except_whitespace()` loop of
`tokenize`: accumulate raw words (joined by the whitespace read between them)
into `string` until a word matches a registry (breaking out of `'untilow` with
that token) or the input ends.  `ws` is the whitespace read just before the
next word. -/
def untilOwInner (lvl : OwsqlErrorLevel) (ov wa : BidiMap Str Str)
    (em : BidiMap OwsqlError Str) :
    Nat → Str → Str → Str → Str × TokenType × Str
  | 0, string, _, r => (string, .None, r)
  | fuel + 1, string, ws, r =>
    match consumeExceptWhitespace lvl r with
    | (.error _, _) => (string, .None, r)
    | (.ok s, r1) =>
      if ov.containReverse s then (string, .Overwrite s, r1)
      else if em.containReverse s then (string, .ErrOverwrite s, r1)
      else
        let string' :=
          match wa.getReverse s with
          | some s' => string ++ ws.dropLast ++ s'
          | none => string ++ ws ++ s
        let (ws2, r2) := consumeWhitespace lvl r1
        untilOwInner lvl ov wa em fuel string' (exceptGetD ws2) r2

/-- The `'untilow: while !parser.eof()` loop of `tokenize`: read the
whitespace run (dropping its first character when the accumulator started from
a `whitespace_around` entry — the source indexes `whitespace.remove(0)`, which
is only reached with a non-empty run when that registry is populated), then
run the inner word loop; when the inner loop ends without finding a registered
word the outer loop re-checks for end of input. -/
def untilOwOuter (lvl : OwsqlErrorLevel) (ov wa : BidiMap Str Str)
    (em : BidiMap OwsqlError Str) (swa : Bool) :
    Nat → Str → Str → Str × TokenType × Str
  | 0, string, r => (string, .None, r)
  | fuel + 1, string, r =>
    if r = [] then (string, .None, r)
    else
      let (wsRes, r1) := consumeWhitespace lvl r
      let ws0 := exceptGetD wsRes
      let ws := if swa then ws0.drop 1 else ws0
      match untilOwInner lvl ov wa em fuel string ws r1 with
      | (string', .None, r') => untilOwOuter lvl ov wa em swa fuel string' r'
      | out => out

/-- The main loop of `tokenize`: skip whitespace, read one word; a word found
in `overwrite` (resp. `error_msg`) becomes an `Overwrite` (resp.
`ErrOverwrite`) token; any other word starts a raw-string accumulation that
runs until the next registered word, after which the accumulated text is
emitted quoted and escaped, followed by the registered token if one was
found. -/
def tokenizeOuter (lvl : OwsqlErrorLevel) (mustEscape : Char → Bool)
    (ov wa : BidiMap Str Str) (em : BidiMap OwsqlError Str) :
    Nat → Str → List TokenType → Except OwsqlError (List TokenType)
  | 0, _, acc => .ok acc
  | fuel + 1, r, acc =>
    if r = [] then .ok acc
    else
      let r1 := skipWhitespace lvl r
      if r1 = [] then .ok acc
      else
        match consumeExceptWhitespace lvl r1 with
        | (.error e, _) => .error e
        | (.ok string, r2) =>
          if ov.containReverse string then
            tokenizeOuter lvl mustEscape ov wa em fuel r2
              (acc ++ [.Overwrite string])
          else if em.containReverse string then
            tokenizeOuter lvl mustEscape ov wa em fuel r2
              (acc ++ [.ErrOverwrite string])
          else
            let swa := wa.containReverse string
            let string1 := if swa then (wa.getReverse string).getD string else string
            let (string2, owTok, r3) :=
              untilOwOuter lvl ov wa em swa fuel string1 r2
            tokenizeOuter lvl mustEscape ov wa em fuel r3
              (acc ++ [.String ('\'' :: escapeString mustEscape string2 ++ ['\''])]
                ++ (if owTok.isNone then [] else [owTok]))

/-- `tokenize(stmt, must_escape, overwrite, whitespace_around, error_msg,
error_level)` of `src/parser.rs`. -/
def tokenize (stmt : Str) (mustEscape : Char → Bool)
    (ov wa : BidiMap Str Str) (em : BidiMap OwsqlError Str)
    (lvl : OwsqlErrorLevel) : Except OwsqlError (List TokenType) :=
  tokenizeOuter lvl mustEscape ov wa em (stmt.length + 1) stmt []

/-- The rewriting fold of `convert_to_valid_syntax`: an `ErrOverwrite` token
aborts with the registered error recovered through `error_msg.get_reverse`; an
`Overwrite` token appends the original fragment recovered through
`overwrite.get_reverse`; any other token appends its own payload; a single
space follows every emitted unit. -/
def convertFold (ov : BidiMap Str Str) (em : BidiMap OwsqlError Str) :
    List TokenType → Str → Except OwsqlError Str
  | [], query => .ok query
  | t :: ts, query =>
    match t with
    | .ErrOverwrite e => .error ((em.getReverse e).getD OwsqlError.AnyError)
    | .Overwrite original =>
      convertFold ov em ts (query ++ ((ov.getReverse original).getD []) ++ [' '])
    | other => convertFold ov em ts (query ++ other.unwrap ++ [' '])

/-- `convert_to_valid_syntax` of `src/parser.rs` (the name is shortened to
keep the development's lexical conventions uniform). -/
def convertToValidSql (stmt : Str) (mustEscape : Char → Bool)
    (ov wa : BidiMap Str Str) (em : BidiMap OwsqlError Str)
    (lvl : OwsqlErrorLevel) : Except OwsqlError Str :=
  match tokenize stmt mustEscape ov wa em lvl with
  | .error e => .error e
  | .ok tokens => convertFold ov em tokens []

/-! ### Connection facade (`src/connection.rs`) -/

/-- Database backends. -/
inductive DBType
  | Sqlite
  | Mysql
  | Postgresql
deriving DecidableEq

/-- Modelled from the spec (§4.F, the dialect modules are not among the given
sources): the per-dialect escape predicate — SQLite escapes only `'`,
MySQL/PostgreSQL escape `'` and `\`. -/
def mustEscapeFor : DBType → Char → Bool
  | .Sqlite => fun c => c == '\''
  | _ => fun c => c == '\'' || c == '\\'

/-- `str::parse::<i64>()` — modelled from the Rust standard library: an
optional single sign, then one or more ASCII digits, with the value within the
signed 64-bit range. -/
def parseI64 (s : Str) : Option Int :=
  let signDigits : Int × Str :=
    match s with
    | '+' :: r => (1, r)
    | '-' :: r => (-1, r)
    | r => (1, r)
  match signDigits with
  | (sign, digits) =>
    if digits = [] then none
    else if digits.all Char.isDigit then
      let n : Int := digits.foldl (fun a c => a * 10 + (c.toNat - '0'.toNat)) 0
      let v := sign * n
      if -(2 ^ 63) ≤ v ∧ v ≤ 2 ^ 63 - 1 then some v else none
    else none

/-- The per-connection state of `Connection` (`src/connection.rs`).  The
driver handle is an external collaborator and is not modelled.  `mint` models
the placeholder minter `overwrite_new(serial, ow_len_range)` (its module is
not among the given sources): an abstract supply of opaque strings indexed by
the serial counter.  `whitespace_around` appears in the `tokenize` signature
of `src/parser.rs`; no public operation populates it. -/
structure Connection where
  allowlist : List Str
  serialNumber : Nat
  owLenRange : Nat × Nat
  mint : Nat → Str
  overwrite : BidiMap Str Str
  whitespaceAround : BidiMap Str Str
  errorMsg : BidiMap OwsqlError Str
  errorLevel : OwsqlErrorLevel
  dbType : DBType

namespace Connection

/-- `overwrite_new(self.serial_number.borrow_mut().get(), self.ow_len_range)`:
mint a fresh placeholder and advance the serial counter. -/
def mintPh (conn : Connection) : Str × Connection :=
  (conn.mint conn.serialNumber,
   { conn with serialNumber := conn.serialNumber + 1 })

/-- `Connection::ow(s)`: validate the fragment; on success intern it in
`overwrite` (minting a placeholder unless already present) and return its
placeholder wrapped in single spaces; on failure intern the error in
`error_msg` the same way and return that placeholder wrapped in single
spaces. -/
def ow (conn : Connection) (s : Str) : Str × Connection :=
  match checkValidLiteral s conn.errorLevel with
  | .ok _ =>
    let conn :=
      if conn.overwrite.contain s then conn
      else
        let (m, c) := conn.mintPh
        { c with overwrite := c.overwrite.insert s m }
    (' ' :: ((conn.overwrite.get s).getD []) ++ [' '], conn)
  | .error e =>
    let conn :=
      if conn.errorMsg.contain e then conn
      else
        let (m, c) := conn.mintPh
        { c with errorMsg := c.errorMsg.insert e m }
    (' ' :: ((conn.errorMsg.get e).getD []) ++ [' '], conn)

/-- `Connection::int(value)`: a value whose string form parses as an `i64` is
interned in `overwrite` (under that string form); otherwise a
`"non integer"` error is interned in `error_msg`. -/
def int (conn : Connection) (value : Str) : Str × Connection :=
  if (parseI64 value).isSome then
    let conn :=
      if conn.overwrite.contain value then conn
      else
        let (m, c) := conn.mintPh
        { c with overwrite := c.overwrite.insert value m }
    (' ' :: ((conn.overwrite.get value).getD []) ++ [' '], conn)
  else
    let e := (exceptErr (OwsqlError.new conn.errorLevel (str "non integer") value)).getD .AnyError
    let conn :=
      if conn.errorMsg.contain e then conn
      else
        let (m, c) := conn.mintPh
        { c with errorMsg := c.errorMsg.insert e m }
    (' ' :: ((conn.errorMsg.get e).getD []) ++ [' '], conn)

/-- `Connection::is_allowlist(value)`. -/
def isAllowlist (conn : Connection) (value : Str) : Bool :=
  conn.allowlist.contains value

/-- `Connection::allowlist(value)` (named `allowlistOw` here because the Rust
method shares its name with the `allowlist` field): an allowlisted value
resolves to the placeholder of its escaped allowlist form in `overwrite`;
otherwise a `"deny value"` error is interned in `error_msg`. -/
def allowlistOw (conn : Connection) (value : Str) : Str × Connection :=
  if conn.isAllowlist value then
    (' ' :: ((conn.overwrite.get (escapeForAllowlist value)).getD []) ++ [' '], conn)
  else
    let e := (exceptErr (OwsqlError.new conn.errorLevel (str "deny value") value)).getD .AnyError
    let conn :=
      if conn.errorMsg.contain e then conn
      else
        let (m, c) := conn.mintPh
        { c with errorMsg := c.errorMsg.insert e m }
    (' ' :: ((conn.errorMsg.get e).getD []) ++ [' '], conn)

/-- `Connection::add_allowlist(params)`: insert each stringified value into
the allowlist set and intern its escaped form in `overwrite` with a minted
placeholder. -/
def addAllowlist (conn : Connection) (params : List Str) : Connection :=
  params.foldl
    (fun c value =>
      let c1 := { c with allowlist := value :: c.allowlist }
      let (m, c2) := c1.mintPh
      { c2 with overwrite := c2.overwrite.insert (escapeForAllowlist value) m })
    conn

/-- `Connection::actual_sql(query)`: run the rewrite pipeline without
executing.  (`execute` and `iterate` run the same
`convert_to_valid_syntax` before delegating to the driver.) -/
def actualSql (conn : Connection) (query : Str) : Except OwsqlError Str :=
  convertToValidSql query (mustEscapeFor conn.dbType) conn.overwrite
    conn.whitespaceAround conn.errorMsg conn.errorLevel

end Connection

/-! ### Rows (`src/row.rs`) -/

/-- A single result row: a map from column name to an optional (possibly SQL
`NULL`) value. -/
structure Row where
  value : List (Str × Option Str)
deriving DecidableEq

/-- `Row::new()`. -/
def Row.new : Row := ⟨[]⟩

/-- `Row::insert`. -/
def Row.insert (r : Row) (key : Str) (v : Option Str) : Row :=
  ⟨assocInsert r.value key v⟩

/-- `Row::get(key)`: `self.value.get(key)?.as_deref()` — `none` both when the
column is absent and when it holds SQL `NULL`. -/
def Row.get (r : Row) (key : Str) : Option Str :=
  match assocLookup r.value key with
  | none => none
  | some v => v

/-! ### A concrete connection for witnesses and counterexamples -/

/-- A concrete deterministic minter: pairwise-distinct, non-empty,
whitespace-free placeholders. -/
def mintDemo (n : Nat) : Str := 'O' :: 'W' :: List.replicate (n + 1) 'X'

/-- A fresh SQLite connection at `Develop` error level (the debug-build
default), with the demo minter. -/
def conn0 : Connection :=
  { allowlist := []
    serialNumber := 0
    owLenRange := (32, 32)
    mint := mintDemo
    overwrite := BidiMap.empty
    whitespaceAround := BidiMap.empty
    errorMsg := BidiMap.empty
    errorLevel := .Develop
    dbType := .Sqlite }

/-! ### Derived predicates used by the statements and proofs -/

/-- The head of the string, if any, is whitespace (vacuously true for `[]`). -/
def HeadWsOrNil (r : Str) : Prop := ∀ d, r.head? = some d → d.isWhitespace = true

/-- The head of the string, if any, is not whitespace (vacuously true for
`[]`). -/
def HeadNonWsOrNil (r : Str) : Prop := ∀ d, r.head? = some d → d.isWhitespace = false

/-- Flatten a list of (whitespace-run, word) chunks. -/
def joinChunks : List (Str × Str) → Str
  | [] => []
  | (u, x) :: t => u ++ x ++ joinChunks t

/-- A raw word: non-empty, whitespace-free, registered in neither registry. -/
def WordOk (ov : BidiMap Str Str) (em : BidiMap OwsqlError Str) (x : Str) : Prop :=
  NonWs x ∧ x ≠ [] ∧ ov.containReverse x = false ∧ em.containReverse x = false

/-- A chunk: a non-empty whitespace run followed by a raw word. -/
def ChunkOk (ov : BidiMap Str Str) (em : BidiMap OwsqlError Str)
    (p : Str × Str) : Prop :=
  AllWs p.1 ∧ p.1 ≠ [] ∧ WordOk ov em p.2

instance (ov : BidiMap Str Str) (em : BidiMap OwsqlError Str) (x : Str) :
    Decidable (WordOk ov em x) := by
  unfold WordOk
  infer_instance

instance (ov : BidiMap Str Str) (em : BidiMap OwsqlError Str) (p : Str × Str) :
    Decidable (ChunkOk ov em p) := by
  unfold ChunkOk
  infer_instance

/-- The spec's BidiRegistry invariant: both directions stay in sync — every
forward pair is reverse-resolvable to its own key and vice versa. -/
def BidiMap.Paired {α β : Type} [DecidableEq α] [DecidableEq β]
    (m : BidiMap α β) : Prop :=
  (∀ p ∈ m.key_value, assocLookup m.value_key p.2 = some p.1) ∧
  (∀ p ∈ m.value_key, assocLookup m.key_value p.2 = some p.1)

instance {α β : Type} [DecidableEq α] [DecidableEq β] (m : BidiMap α β) :
    Decidable m.Paired := by
  unfold BidiMap.Paired
  infer_instance

/-! ### Association-list lemmas -/

theorem assocLookup_insert_self {α β : Type} [DecidableEq α]
    (l : List (α × β)) (k : α) (v : β) :
    assocLookup (assocInsert l k v) k = some v := by
  simp [assocInsert, assocLookup]

theorem assocLookup_erase_ne {α β : Type} [DecidableEq α]
    (l : List (α × β)) {k k' : α} (h : k' ≠ k) :
    assocLookup (assocErase l k) k' = assocLookup l k' := by
  induction l with
  | nil => rfl
  | cons p l ih =>
    obtain ⟨a, b⟩ := p
    by_cases hak : a = k
    · subst hak
      have : a ≠ k' := fun hc => h hc.symm
      simp [assocErase, assocLookup, this, ih]
    · by_cases hak' : a = k'
      · subst hak'
        simp [assocErase, assocLookup, hak]
      · simp [assocErase, assocLookup, hak, hak', ih]

theorem assocLookup_insert_ne {α β : Type} [DecidableEq α]
    (l : List (α × β)) {k k' : α} (v : β) (h : k' ≠ k) :
    assocLookup (assocInsert l k v) k' = assocLookup l k' := by
  have : k ≠ k' := fun hc => h hc.symm
  simp [assocInsert, assocLookup, this, assocLookup_erase_ne l h]

theorem assocErase_of_lookup_none {α β : Type} [DecidableEq α]
    (l : List (α × β)) (k : α) (h : assocLookup l k = none) :
    assocErase l k = l := by
  induction l with
  | nil => rfl
  | cons p l ih =>
    obtain ⟨a, b⟩ := p
    by_cases hak : a = k
    · simp [assocLookup, hak] at h
    · simp [assocLookup, hak] at h
      simp [assocErase, hak, ih h]

theorem mem_of_assocLookup_some {α β : Type} [DecidableEq α]
    (l : List (α × β)) (k : α) (v : β) (h : assocLookup l k = some v) :
    (k, v) ∈ l := by
  induction l with
  | nil => simp [assocLookup] at h
  | cons p l ih =>
    obtain ⟨a, b⟩ := p
    by_cases hak : a = k
    · subst hak
      simp [assocLookup] at h
      simp [h]
    · simp [assocLookup, hak] at h
      exact List.mem_cons_of_mem _ (ih h)

theorem mem_of_mem_assocErase {α β : Type} [DecidableEq α]
    (l : List (α × β)) (k : α) (p : α × β) (h : p ∈ assocErase l k) :
    p ∈ l := by
  induction l with
  | nil => simp [assocErase] at h
  | cons q l ih =>
    obtain ⟨a, b⟩ := q
    by_cases hak : a = k
    · simp only [assocErase, hak, if_pos rfl] at h
      exact List.mem_cons_of_mem _ (ih h)
    · simp only [assocErase, if_neg hak] at h
      rcases List.mem_cons.mp h with h | h
      · simp [h]
      · exact List.mem_cons_of_mem _ (ih h)

theorem key_of_mem_assocErase {α β : Type} [DecidableEq α]
    (l : List (α × β)) (k : α) (p : α × β) (h : p ∈ assocErase l k) :
    p.1 ≠ k := by
  induction l with
  | nil => simp [assocErase] at h
  | cons q l ih =>
    obtain ⟨a, b⟩ := q
    by_cases hak : a = k
    · simp only [assocErase, hak, if_pos rfl] at h
      exact ih h
    · simp only [assocErase, if_neg hak] at h
      rcases List.mem_cons.mp h with h | h
      · subst h; exact hak
      · exact ih h

/-! ### BidiMap lemmas -/

namespace BidiMap

variable {α β : Type} [DecidableEq α] [DecidableEq β]

theorem insert_of_not_contain {m : BidiMap α β} {a : α} (b : β)
    (h : m.contain a = false) :
    m.insert a b = ⟨assocInsert m.key_value a b, assocInsert m.value_key b a⟩ := by
  have h' : assocLookup m.key_value a = none := by
    cases hg : assocLookup m.key_value a with
    | none => rfl
    | some v => simp [contain, get, hg] at h
  simp [insert, entryOrInsert, h']

theorem insert_of_contain {m : BidiMap α β} {a : α} (b : β)
    (h : m.contain a = true) : m.insert a b = m := by
  simp only [contain, get] at h
  simp [insert, entryOrInsert, h]

theorem get_insert_self {m : BidiMap α β} {a : α} (b : β)
    (h : m.contain a = false) : (m.insert a b).get a = some b := by
  rw [insert_of_not_contain b h]
  simp [get, assocLookup_insert_self]

theorem contain_insert_self (m : BidiMap α β) (a : α) (b : β) :
    (m.insert a b).contain a = true := by
  by_cases h : m.contain a = true
  · rw [insert_of_contain b h]; exact h
  · have h' : m.contain a = false := by revert h; cases m.contain a <;> simp
    rw [insert_of_not_contain b h']
    simp [contain, get, assocLookup_insert_self]

theorem get_insert_ne {m : BidiMap α β} {a a' : α} (b : β)
    (hc : m.contain a = false) (h : a' ≠ a) :
    (m.insert a b).get a' = m.get a' := by
  rw [insert_of_not_contain b hc]
  simp [get, assocLookup_insert_ne _ _ h]

theorem getReverse_insert_self {m : BidiMap α β} {a : α} (b : β)
    (h : m.contain a = false) : (m.insert a b).getReverse b = some a := by
  rw [insert_of_not_contain b h]
  simp [getReverse, assocLookup_insert_self]

theorem getReverse_insert_ne {m : BidiMap α β} {a : α} {b b' : β}
    (hc : m.contain a = false) (h : b' ≠ b) :
    (m.insert a b).getReverse b' = m.getReverse b' := by
  rw [insert_of_not_contain b hc]
  simp [getReverse, assocLookup_insert_ne _ _ h]

theorem containReverse_insert_self {m : BidiMap α β} {a : α} (b : β)
    (h : m.contain a = false) : (m.insert a b).containReverse b = true := by
  simp [containReverse, getReverse_insert_self b h]

theorem containReverse_insert_ne {m : BidiMap α β} {a : α} {b b' : β}
    (hc : m.contain a = false) (h : b' ≠ b) :
    (m.insert a b).containReverse b' = m.containReverse b' := by
  simp [containReverse, getReverse_insert_ne hc h]

end BidiMap

theorem BidiMap.containReverse_empty {α β : Type} [DecidableEq β] (b : β) :
    (BidiMap.empty : BidiMap α β).containReverse b = false := rfl

theorem BidiMap.getReverse_empty {α β : Type} [DecidableEq β] (b : β) :
    (BidiMap.empty : BidiMap α β).getReverse b = none := rfl

/-! ### Scanner lemmas -/

theorem consumeWhileAux_stop (f : Char → Bool) (xs ys : Str)
    (h1 : ∀ c ∈ xs, f c = true) (h2 : ∀ d, ys.head? = some d → f d = false) :
    consumeWhileAux f (xs ++ ys) = (xs, ys) := by
  induction xs with
  | nil =>
    cases ys with
    | nil => rfl
    | cons d ds =>
      have := h2 d rfl
      simp [consumeWhileAux, this]
  | cons c cs ih =>
    have hc := h1 c (List.mem_cons_self c cs)
    have ih' := ih fun x hx => h1 x (List.mem_cons_of_mem _ hx)
    simp [consumeWhileAux, hc, ih']

theorem consumeExceptWhitespace_word (lvl : OwsqlErrorLevel) (w rest : Str)
    (hw : NonWs w) (hne : w ≠ []) (hr : HeadWsOrNil rest) :
    consumeExceptWhitespace lvl (w ++ rest) = (.ok w, rest) := by
  have h1 : ∀ c ∈ w, (!c.isWhitespace) = true := by
    intro c hc; simp [hw c hc]
  have h2 : ∀ d, rest.head? = some d → (!d.isWhitespace) = false := by
    intro d hd; simp [hr d hd]
  simp [consumeExceptWhitespace, consumeWhileAux_stop _ _ _ h1 h2, hne]

theorem consumeExceptWhitespace_err (lvl : OwsqlErrorLevel) (r : Str)
    (hr : HeadWsOrNil r) :
    consumeExceptWhitespace lvl r = (.error (consumeExceptWsErr lvl), r) := by
  have h2 : ∀ d, r.head? = some d → (!d.isWhitespace) = false := by
    intro d hd; simp [hr d hd]
  have := consumeWhileAux_stop (fun c => !c.isWhitespace) [] r (by simp) h2
  simp only [List.nil_append] at this
  simp [consumeExceptWhitespace, this]

theorem consumeWhitespace_run (lvl : OwsqlErrorLevel) (u rest : Str)
    (hu : AllWs u) (hne : u ≠ []) (hr : HeadNonWsOrNil rest) :
    consumeWhitespace lvl (u ++ rest) = (.ok u, rest) := by
  have h1 : ∀ c ∈ u, c.isWhitespace = true := hu
  have h2 : ∀ d, rest.head? = some d → d.isWhitespace = false := hr
  simp [consumeWhitespace, consumeWhile,
    consumeWhileAux_stop _ _ _ h1 h2, hne]

theorem consumeWhitespace_none (lvl : OwsqlErrorLevel) (r : Str)
    (hr : HeadNonWsOrNil r) :
    consumeWhitespace lvl r = (.error (consumeWhileErr lvl), r) := by
  have := consumeWhileAux_stop Char.isWhitespace [] r (by simp) hr
  simp only [List.nil_append] at this
  simp [consumeWhitespace, consumeWhile, this]

theorem skipWhitespace_run (lvl : OwsqlErrorLevel) (u rest : Str)
    (hu : AllWs u) (hr : HeadNonWsOrNil rest) :
    skipWhitespace lvl (u ++ rest) = rest := by
  cases hu' : decide (u = []) with
  | true =>
    have : u = [] := of_decide_eq_true hu'
    subst this
    have hstop := consumeWhileAux_stop Char.isWhitespace [] rest (by simp) hr
    simp only [List.nil_append] at hstop ⊢
    simp [skipWhitespace, consumeWhile, hstop]
  | false =>
    have hne : u ≠ [] := of_decide_eq_false hu'
    have := consumeWhitespace_run lvl u rest hu hne hr
    simp only [consumeWhitespace] at this
    simp [skipWhitespace, this]

/-! ### Validator and rewriter lemmas -/

/-- At `Develop` level the literal validator can only fail with the collapsed
`"invalid literal"` message, whatever the offending fragment is. -/
theorem checkValidLiteralLoop_error_develop (orig : Str) (e : OwsqlError) :
    ∀ (fuel : Nat) (r : Str),
      checkValidLiteralLoop .Develop orig fuel r = .error e →
      e = .Message (str "invalid literal") := by
  intro fuel
  induction fuel with
  | zero => intro r h; simp [checkValidLiteralLoop] at h
  | succ n ih =>
    intro r h
    cases r with
    | nil => simp [checkValidLiteralLoop] at h
    | cons c cs =>
      rw [checkValidLiteralLoop] at h
      split at h
      · split at h
        · simp only [OwsqlError.new, Except.error.injEq] at h
          exact h.symm
        · exact ih _ h
      · split at h
        · simp only [OwsqlError.new, Except.error.injEq] at h
          exact h.symm
        · exact ih _ h
      · exact ih _ h

theorem checkValidLiteral_error_develop (s : Str) (e : OwsqlError)
    (h : checkValidLiteral s .Develop = .error e) :
    e = .Message (str "invalid literal") :=
  checkValidLiteralLoop_error_develop s e _ s h

/-- Every rewrite step appends a trailing space, so a successful fold starting
from a space-terminated (or empty) buffer ends space-terminated (or empty). -/
theorem convertFold_trailing (ov : BidiMap Str Str) (em : BidiMap OwsqlError Str) :
    ∀ (ts : List TokenType) (q res : Str),
      (q = [] ∨ q.getLast? = some ' ') →
      convertFold ov em ts q = .ok res →
      res = [] ∨ res.getLast? = some ' ' := by
  intro ts
  induction ts with
  | nil =>
    intro q res hq h
    simp only [convertFold, Except.ok.injEq] at h
    exact h ▸ hq
  | cons t ts ih =>
    intro q res hq h
    cases t with
    | ErrOverwrite e => simp [convertFold] at h
    | Overwrite original =>
      refine ih _ res (Or.inr ?_) h
      rw [show q ++ (ov.getReverse original).getD [] ++ [' ']
            = (q ++ (ov.getReverse original).getD []) ++ [' '] by simp]
      exact List.getLast?_concat _
    | String s =>
      refine ih _ res (Or.inr ?_) h
      rw [show q ++ TokenType.unwrap (.String s) ++ [' ']
            = (q ++ TokenType.unwrap (.String s)) ++ [' '] by simp]
      exact List.getLast?_concat _
    | None =>
      refine ih _ res (Or.inr ?_) h
      rw [show q ++ TokenType.unwrap .None ++ [' ']
            = (q ++ TokenType.unwrap .None) ++ [' '] by simp]
      exact List.getLast?_concat _

/-- A query made only of whitespace (or empty) tokenizes to no tokens. -/
theorem tokenize_allWs (q : Str) (mustEscape : Char → Bool)
    (ov wa : BidiMap Str Str) (em : BidiMap OwsqlError Str)
    (lvl : OwsqlErrorLevel) (hws : AllWs q) :
    tokenize q mustEscape ov wa em lvl = .ok [] := by
  cases q with
  | nil => rfl
  | cons c cs =>
    have hskip : skipWhitespace lvl (c :: cs) = [] := by
      have := skipWhitespace_run lvl (c :: cs) [] hws (by intro d hd; cases hd)
      simpa using this
    simp [tokenize, tokenizeOuter, hskip]

/-! ### `Connection::ow` unfolding lemmas -/

namespace Connection

theorem ow_ok_contain {conn : Connection} {s : Str}
    (h : checkValidLiteral s conn.errorLevel = .ok ())
    (hc : conn.overwrite.contain s = true) :
    conn.ow s = (' ' :: ((conn.overwrite.get s).getD []) ++ [' '], conn) := by
  simp [ow, h, hc]

theorem ow_ok_fresh {conn : Connection} {s : Str}
    (h : checkValidLiteral s conn.errorLevel = .ok ())
    (hc : conn.overwrite.contain s = false) :
    conn.ow s =
      (' ' :: conn.mint conn.serialNumber ++ [' '],
       { conn with
          serialNumber := conn.serialNumber + 1
          overwrite := conn.overwrite.insert s (conn.mint conn.serialNumber) }) := by
  simp [ow, h, hc, mintPh, BidiMap.get_insert_self _ hc]

theorem ow_error_contain {conn : Connection} {s : Str} {e : OwsqlError}
    (h : checkValidLiteral s conn.errorLevel = .error e)
    (hc : conn.errorMsg.contain e = true) :
    conn.ow s = (' ' :: ((conn.errorMsg.get e).getD []) ++ [' '], conn) := by
  simp [ow, h, hc]

theorem ow_error_fresh {conn : Connection} {s : Str} {e : OwsqlError}
    (h : checkValidLiteral s conn.errorLevel = .error e)
    (hc : conn.errorMsg.contain e = false) :
    conn.ow s =
      (' ' :: conn.mint conn.serialNumber ++ [' '],
       { conn with
          serialNumber := conn.serialNumber + 1
          errorMsg := conn.errorMsg.insert e (conn.mint conn.serialNumber) }) := by
  simp [ow, h, hc, mintPh, BidiMap.get_insert_self _ hc]

theorem ow_errorLevel (conn : Connection) (s : Str) :
    (conn.ow s).2.errorLevel = conn.errorLevel := by
  rw [ow]
  rcases hcv : checkValidLiteral s conn.errorLevel with e | u
  · simp only []
    split <;> rfl
  · simp only []
    split <;> rfl

end Connection

/-! ### Tokenizer stepping lemmas

The composed queries of the claims alternate placeholder words, raw words and
whitespace runs; the lemmas below drive `tokenize` across one such unit at a
time.  Raw text between two placeholders is described by a first word plus a
list of (whitespace-run, word) chunks. -/

theorem head_nonWs_of_word {x : Str} (hx : NonWs x) (hne : x ≠ []) (rest : Str) :
    HeadNonWsOrNil (x ++ rest) := by
  intro d hd
  cases x with
  | nil => exact absurd rfl hne
  | cons c cs =>
    simp only [List.cons_append, List.head?_cons, Option.some.injEq] at hd
    exact hd ▸ hx c (List.mem_cons_self c cs)

theorem head_ws_of_run {u : Str} (hu : AllWs u) (hne : u ≠ []) (rest : Str) :
    HeadWsOrNil (u ++ rest) := by
  intro d hd
  cases u with
  | nil => exact absurd rfl hne
  | cons c cs =>
    simp only [List.cons_append, List.head?_cons, Option.some.injEq] at hd
    exact hd ▸ hu c (List.mem_cons_self c cs)

theorem untilOwInner_step (lvl : OwsqlErrorLevel) (ov : BidiMap Str Str)
    (em : BidiMap OwsqlError Str) (fuel : Nat) (string ws x u rest : Str)
    (hx : WordOk ov em x) (hu : AllWs u) (hune : u ≠ [])
    (hrest : HeadNonWsOrNil rest) :
    untilOwInner lvl ov BidiMap.empty em (fuel + 1) string ws (x ++ (u ++ rest))
      = untilOwInner lvl ov BidiMap.empty em fuel (string ++ ws ++ x) u rest := by
  obtain ⟨hxws, hxne, hxov, hxem⟩ := hx
  have hcew := consumeExceptWhitespace_word lvl x (u ++ rest) hxws hxne
    (head_ws_of_run hu hune rest)
  have hcw := consumeWhitespace_run lvl u rest hu hune hrest
  simp [untilOwInner, hcew, hxov, hxem, BidiMap.getReverse_empty, hcw, exceptGetD]

theorem untilOwInner_found (lvl : OwsqlErrorLevel) (ov : BidiMap Str Str)
    (em : BidiMap OwsqlError Str) (fuel : Nat) (string ws m rest : Str)
    (hm : NonWs m) (hmne : m ≠ []) (hrest : HeadWsOrNil rest)
    (hov : ov.containReverse m = true) :
    untilOwInner lvl ov BidiMap.empty em (fuel + 1) string ws (m ++ rest)
      = (string, .Overwrite m, rest) := by
  have hcew := consumeExceptWhitespace_word lvl m rest hm hmne hrest
  simp [untilOwInner, hcew, hov]

theorem untilOwInner_run (lvl : OwsqlErrorLevel) (ov : BidiMap Str Str)
    (em : BidiMap OwsqlError Str) (m1 : Str)
    (hm1 : NonWs m1) (hm1ne : m1 ≠ []) (hm1ov : ov.containReverse m1 = true) :
    ∀ (chunks : List (Str × Str)) (fuel : Nat) (string ws x : Str),
      WordOk ov em x → (∀ p ∈ chunks, ChunkOk ov em p) →
      chunks.length + 2 ≤ fuel →
      untilOwInner lvl ov BidiMap.empty em fuel string ws
          (x ++ joinChunks chunks ++ (' ' :: m1 ++ [' ']))
        = (string ++ ws ++ x ++ joinChunks chunks, .Overwrite m1, [' ']) := by
  intro chunks
  induction chunks with
  | nil =>
    intro fuel string ws x hx _ hfuel
    obtain ⟨f, rfl⟩ : ∃ f, fuel = f + 2 := ⟨fuel - 2, by omega⟩
    have h1 := untilOwInner_step lvl ov em (f + 1) string ws x [' ']
      (m1 ++ [' ']) hx (by intro c hc; simp at hc; simp [hc])
      (by simp) (head_nonWs_of_word hm1 hm1ne [' '])
    have h2 := untilOwInner_found lvl ov em f (string ++ ws ++ x) [' ']
      m1 [' '] hm1 hm1ne
      (by intro d hd; simp only [List.head?_cons, Option.some.injEq] at hd
          rw [← hd]; rfl) hm1ov
    simp only [joinChunks, List.append_nil]
    calc untilOwInner lvl ov BidiMap.empty em (f + 1 + 1) string ws
            (x ++ (' ' :: m1 ++ [' ']))
        = untilOwInner lvl ov BidiMap.empty em (f + 1) (string ++ ws ++ x)
            [' '] (m1 ++ [' ']) := by
          rw [show x ++ (' ' :: m1 ++ [' ']) = x ++ ([' '] ++ (m1 ++ [' '])) by simp]
          exact h1
      _ = (string ++ ws ++ x, .Overwrite m1, [' ']) := h2
  | cons p t ih =>
    intro fuel string ws x hx hch hfuel
    obtain ⟨u, y⟩ := p
    obtain ⟨f, rfl⟩ : ∃ f, fuel = f + 1 := ⟨fuel - 1, by omega⟩
    obtain ⟨hu, hune, hy⟩ := hch (u, y) (List.mem_cons_self _ _)
    have hstep := untilOwInner_step lvl ov em f string ws x u
      (y ++ joinChunks t ++ (' ' :: m1 ++ [' '])) hx hu hune
      (by
        rw [show y ++ joinChunks t ++ (' ' :: m1 ++ [' '])
              = y ++ (joinChunks t ++ (' ' :: m1 ++ [' '])) by simp]
        exact head_nonWs_of_word hy.1 hy.2.1 _)
    have hih := ih f (string ++ ws ++ x) u y hy
      (fun q hq => hch q (List.mem_cons_of_mem _ hq))
      (by simp only [List.length_cons] at hfuel; omega)
    calc untilOwInner lvl ov BidiMap.empty em (f + 1) string ws
            (x ++ joinChunks ((u, y) :: t) ++ (' ' :: m1 ++ [' ']))
        = untilOwInner lvl ov BidiMap.empty em f (string ++ ws ++ x) u
            (y ++ joinChunks t ++ (' ' :: m1 ++ [' '])) := by
          rw [show x ++ joinChunks ((u, y) :: t) ++ (' ' :: m1 ++ [' '])
                = x ++ (u ++ (y ++ joinChunks t ++ (' ' :: m1 ++ [' ']))) by
            simp [joinChunks]]
          exact hstep
      _ = (string ++ ws ++ x ++ u ++ y ++ joinChunks t, .Overwrite m1, [' ']) := by
          rw [hih]
      _ = (string ++ ws ++ x ++ joinChunks ((u, y) :: t), .Overwrite m1, [' ']) := by
          simp [joinChunks]

theorem untilOwOuter_run (lvl : OwsqlErrorLevel) (ov : BidiMap Str Str)
    (em : BidiMap OwsqlError Str) (m1 : Str)
    (hm1 : NonWs m1) (hm1ne : m1 ≠ []) (hm1ov : ov.containReverse m1 = true)
    (chunks : List (Str × Str)) (fuel : Nat) (string : Str)
    (hch : ∀ p ∈ chunks, ChunkOk ov em p)
    (hfuel : chunks.length + 2 ≤ fuel) :
    untilOwOuter lvl ov BidiMap.empty em false (fuel + 1) string
        (joinChunks chunks ++ (' ' :: m1 ++ [' ']))
      = (string ++ joinChunks chunks, .Overwrite m1, [' ']) := by
  cases chunks with
  | nil =>
    obtain ⟨f, rfl⟩ : ∃ f, fuel = f + 1 := ⟨fuel - 1, by omega⟩
    have hcw := consumeWhitespace_run lvl [' '] (m1 ++ [' '])
      (by intro c hc; simp at hc; simp [hc]) (by simp)
      (head_nonWs_of_word hm1 hm1ne [' '])
    have hfound := untilOwInner_found lvl ov em f string [' '] m1 [' ']
      hm1 hm1ne
      (by intro d hd; simp only [List.head?_cons, Option.some.injEq] at hd
          rw [← hd]; rfl) hm1ov
    simp only [joinChunks, List.nil_append, List.append_nil]
    rw [untilOwOuter]
    simp only [List.singleton_append] at hcw
    simp [hcw, hfound, exceptGetD]
  | cons p t =>
    obtain ⟨u, y⟩ := p
    obtain ⟨hu, hune, hy⟩ := hch (u, y) (List.mem_cons_self _ _)
    have hcw := consumeWhitespace_run lvl u
      (y ++ joinChunks t ++ (' ' :: m1 ++ [' '])) hu hune
      (by
        rw [show y ++ joinChunks t ++ (' ' :: m1 ++ [' '])
              = y ++ (joinChunks t ++ (' ' :: m1 ++ [' '])) by simp]
        exact head_nonWs_of_word hy.1 hy.2.1 _)
    have hrun := untilOwInner_run lvl ov em m1 hm1 hm1ne hm1ov t fuel string u y
      hy (fun q hq => hch q (List.mem_cons_of_mem _ hq))
      (by simp only [List.length_cons] at hfuel; omega)
    rw [untilOwOuter]
    have hne : joinChunks ((u, y) :: t) ++ (' ' :: m1 ++ [' ']) ≠ [] := by
      simp [joinChunks]
    rw [if_neg hne]
    rw [show joinChunks ((u, y) :: t) ++ (' ' :: m1 ++ [' '])
          = u ++ (y ++ joinChunks t ++ (' ' :: m1 ++ [' '])) by simp [joinChunks]]
    simp only [hcw, exceptGetD, Bool.false_eq_true, if_false, hrun]
    simp [joinChunks]

theorem tokenizeOuter_allWs (lvl : OwsqlErrorLevel) (esc : Char → Bool)
    (ov wa : BidiMap Str Str) (em : BidiMap OwsqlError Str)
    (fuel : Nat) (r : Str) (acc : List TokenType) (hws : AllWs r) :
    tokenizeOuter lvl esc ov wa em fuel r acc = .ok acc := by
  cases fuel with
  | zero => rfl
  | succ f =>
    cases r with
    | nil => rfl
    | cons c cs =>
      have hskip : skipWhitespace lvl (c :: cs) = [] := by
        have := skipWhitespace_run lvl (c :: cs) [] hws (by intro d hd; cases hd)
        simpa using this
      simp [tokenizeOuter, hskip]

theorem tokenizeOuter_step_ph (lvl : OwsqlErrorLevel) (esc : Char → Bool)
    (ov wa : BidiMap Str Str) (em : BidiMap OwsqlError Str)
    (fuel : Nat) (u w rest : Str) (acc : List TokenType)
    (hu : AllWs u) (hw : NonWs w) (hwne : w ≠ []) (hrest : HeadWsOrNil rest)
    (hov : ov.containReverse w = true) :
    tokenizeOuter lvl esc ov wa em (fuel + 1) (u ++ (w ++ rest)) acc
      = tokenizeOuter lvl esc ov wa em fuel rest (acc ++ [.Overwrite w]) := by
  have hne : u ++ (w ++ rest) ≠ [] := by
    intro hc
    rcases List.append_eq_nil.mp hc with ⟨-, hc2⟩
    exact hwne (List.append_eq_nil.mp hc2).1
  have hskip := skipWhitespace_run lvl u (w ++ rest) hu
    (head_nonWs_of_word hw hwne rest)
  have hr1ne : w ++ rest ≠ [] := by
    intro hc; exact hwne (List.append_eq_nil.mp hc).1
  have hcew := consumeExceptWhitespace_word lvl w rest hw hwne hrest
  rw [tokenizeOuter, if_neg hne, hskip, if_neg hr1ne]
  simp [hcew, hov]

theorem tokenizeOuter_step_errph (lvl : OwsqlErrorLevel) (esc : Char → Bool)
    (ov wa : BidiMap Str Str) (em : BidiMap OwsqlError Str)
    (fuel : Nat) (u w rest : Str) (acc : List TokenType)
    (hu : AllWs u) (hw : NonWs w) (hwne : w ≠ []) (hrest : HeadWsOrNil rest)
    (hov : ov.containReverse w = false) (hem : em.containReverse w = true) :
    tokenizeOuter lvl esc ov wa em (fuel + 1) (u ++ (w ++ rest)) acc
      = tokenizeOuter lvl esc ov wa em fuel rest (acc ++ [.ErrOverwrite w]) := by
  have hne : u ++ (w ++ rest) ≠ [] := by
    intro hc
    rcases List.append_eq_nil.mp hc with ⟨-, hc2⟩
    exact hwne (List.append_eq_nil.mp hc2).1
  have hskip := skipWhitespace_run lvl u (w ++ rest) hu
    (head_nonWs_of_word hw hwne rest)
  have hr1ne : w ++ rest ≠ [] := by
    intro hc; exact hwne (List.append_eq_nil.mp hc).1
  have hcew := consumeExceptWhitespace_word lvl w rest hw hwne hrest
  rw [tokenizeOuter, if_neg hne, hskip, if_neg hr1ne]
  simp [hcew, hov, hem]

theorem tokenizeOuter_step_user (lvl : OwsqlErrorLevel) (esc : Char → Bool)
    (ov : BidiMap Str Str) (em : BidiMap OwsqlError Str)
    (fuel : Nat) (u w rest : Str) (acc : List TokenType)
    (string2 r3 : Str) (owTok : TokenType)
    (hu : AllWs u) (hw : WordOk ov em w) (hrest : HeadWsOrNil rest)
    (hrun : untilOwOuter lvl ov BidiMap.empty em false fuel w rest
              = (string2, owTok, r3)) :
    tokenizeOuter lvl esc ov BidiMap.empty em (fuel + 1) (u ++ (w ++ rest)) acc
      = tokenizeOuter lvl esc ov BidiMap.empty em fuel r3
          (acc ++ [.String ('\'' :: escapeString esc string2 ++ ['\''])]
            ++ (if owTok.isNone then [] else [owTok])) := by
  obtain ⟨hwws, hwne, hwov, hwem⟩ := hw
  have hne : u ++ (w ++ rest) ≠ [] := by
    intro hc
    rcases List.append_eq_nil.mp hc with ⟨-, hc2⟩
    exact hwne (List.append_eq_nil.mp hc2).1
  have hskip := skipWhitespace_run lvl u (w ++ rest) hu
    (head_nonWs_of_word hwws hwne rest)
  have hr1ne : w ++ rest ≠ [] := by
    intro hc; exact hwne (List.append_eq_nil.mp hc).1
  have hcew := consumeExceptWhitespace_word lvl w rest hwws hwne hrest
  rw [tokenizeOuter, if_neg hne, hskip, if_neg hr1ne]
  simp [hcew, hwov, hwem, BidiMap.containReverse_empty, BidiMap.getReverse_empty,
    hrun]

theorem joinChunks_length_ge (chunks : List (Str × Str))
    (h : ∀ p ∈ chunks, p.1 ≠ [] ∧ p.2 ≠ []) :
    2 * chunks.length ≤ (joinChunks chunks).length := by
  induction chunks with
  | nil => simp [joinChunks]
  | cons p t ih =>
    obtain ⟨u, x⟩ := p
    obtain ⟨hu, hx⟩ := h (u, x) (List.mem_cons_self _ _)
    have hu1 : 1 ≤ u.length := List.length_pos.mpr hu
    have hx1 : 1 ≤ x.length := List.length_pos.mpr hx
    have iht := ih fun q hq => h q (List.mem_cons_of_mem _ hq)
    simp only [joinChunks, List.length_append, List.length_cons]
    omega

theorem headWs_joinChunks_tail (chunks : List (Str × Str)) (m1 : Str)
    (hws : ∀ p ∈ chunks, AllWs p.1 ∧ p.1 ≠ []) :
    HeadWsOrNil (joinChunks chunks ++ (' ' :: m1 ++ [' '])) := by
  cases chunks with
  | nil =>
    intro d hd
    simp only [joinChunks, List.nil_append, List.cons_append, List.head?_cons,
      Option.some.injEq] at hd
    rw [← hd]; rfl
  | cons p t =>
    obtain ⟨u, x⟩ := p
    obtain ⟨hu, hune⟩ := hws (u, x) (List.mem_cons_self _ _)
    rw [show joinChunks ((u, x) :: t) ++ (' ' :: m1 ++ [' '])
          = u ++ (x ++ joinChunks t ++ (' ' :: m1 ++ [' '])) by simp [joinChunks]]
    exact head_ws_of_run hu hune _

theorem tokenizeOuter_compose (lvl : OwsqlErrorLevel) (esc : Char → Bool)
    (ov : BidiMap Str Str) (em : BidiMap OwsqlError Str)
    (m0 m1 w : Str) (chunks : List (Str × Str))
    (hm0 : NonWs m0) (hm0ne : m0 ≠ []) (hm0ov : ov.containReverse m0 = true)
    (hm1 : NonWs m1) (hm1ne : m1 ≠ []) (hm1ov : ov.containReverse m1 = true)
    (hw : WordOk ov em w) (hch : ∀ p ∈ chunks, ChunkOk ov em p)
    (fuel : Nat) (acc : List TokenType)
    (hfuel : chunks.length + 5 ≤ fuel) :
    tokenizeOuter lvl esc ov BidiMap.empty em fuel
        ((' ' :: m0 ++ [' ']) ++ (w ++ joinChunks chunks) ++ (' ' :: m1 ++ [' ']))
        acc
      = .ok (acc ++
          [.Overwrite m0,
           .String ('\'' :: escapeString esc (w ++ joinChunks chunks) ++ ['\'']),
           .Overwrite m1]) := by
  obtain ⟨f, rfl⟩ : ∃ f, fuel = (f + 1) + 1 + 1 := ⟨fuel - 3, by omega⟩
  have hwsSingle : AllWs [' '] := by intro c hc; simp at hc; simp [hc]
  have hrest2ws : HeadWsOrNil (joinChunks chunks ++ (' ' :: m1 ++ [' '])) := by
    refine headWs_joinChunks_tail chunks m1 ?_
    intro p hp
    exact ⟨(hch p hp).1, (hch p hp).2.1⟩
  have hstep1 := tokenizeOuter_step_ph lvl esc ov BidiMap.empty em (f + 1 + 1)
    [' '] m0
    ([' '] ++ ((w ++ joinChunks chunks) ++ (' ' :: m1 ++ [' ']))) acc
    hwsSingle hm0 hm0ne
    (by intro d hd; simp only [List.cons_append, List.head?_cons,
          Option.some.injEq] at hd
        rw [← hd]; rfl)
    hm0ov
  have hrun := untilOwOuter_run lvl ov em m1 hm1 hm1ne hm1ov chunks f w hch
    (by omega)
  have hstep2 := tokenizeOuter_step_user lvl esc ov em (f + 1) [' '] w
    (joinChunks chunks ++ (' ' :: m1 ++ [' '])) (acc ++ [.Overwrite m0])
    (w ++ joinChunks chunks) [' '] (.Overwrite m1)
    hwsSingle hw hrest2ws hrun
  have hstep3 := tokenizeOuter_allWs lvl esc ov BidiMap.empty em (f + 1) [' ']
    (acc ++ [.Overwrite m0]
      ++ [.String ('\'' :: escapeString esc (w ++ joinChunks chunks) ++ ['\''])]
      ++ [.Overwrite m1]) hwsSingle
  calc tokenizeOuter lvl esc ov BidiMap.empty em ((f + 1) + 1 + 1)
          ((' ' :: m0 ++ [' ']) ++ (w ++ joinChunks chunks) ++ (' ' :: m1 ++ [' ']))
          acc
      = tokenizeOuter lvl esc ov BidiMap.empty em ((f + 1) + 1 + 1)
          ([' '] ++ (m0 ++ ([' ']
            ++ ((w ++ joinChunks chunks) ++ (' ' :: m1 ++ [' ']))))) acc := by
        simp
    _ = tokenizeOuter lvl esc ov BidiMap.empty em ((f + 1) + 1)
          ([' '] ++ ((w ++ joinChunks chunks) ++ (' ' :: m1 ++ [' '])))
          (acc ++ [.Overwrite m0]) := hstep1
    _ = tokenizeOuter lvl esc ov BidiMap.empty em ((f + 1) + 1)
          ([' '] ++ (w ++ (joinChunks chunks ++ (' ' :: m1 ++ [' ']))))
          (acc ++ [.Overwrite m0]) := by
        simp
    _ = tokenizeOuter lvl esc ov BidiMap.empty em (f + 1) [' ']
          ((acc ++ [.Overwrite m0])
            ++ [.String ('\'' :: escapeString esc (w ++ joinChunks chunks) ++ ['\''])]
            ++ (if (TokenType.Overwrite m1).isNone then [] else [.Overwrite m1])) :=
        hstep2
    _ = .ok (acc ++
          [.Overwrite m0,
           .String ('\'' :: escapeString esc (w ++ joinChunks chunks) ++ ['\'']),
           .Overwrite m1]) := by
        rw [show (if (TokenType.Overwrite m1).isNone then ([] : List TokenType)
              else [.Overwrite m1]) = [.Overwrite m1] by rfl]
        simpa using hstep3

theorem BidiMap.contain_insert_ne {α β : Type} [DecidableEq α] [DecidableEq β]
    {m : BidiMap α β} {a a' : α} (b : β)
    (hc : m.contain a = false) (h : a' ≠ a) :
    (m.insert a b).contain a' = m.contain a' := by
  rw [BidiMap.insert_of_not_contain b hc]
  simp [BidiMap.contain, BidiMap.get, assocLookup_insert_ne _ _ h]

/-- A query consisting of a single error placeholder (padded with the spaces
`ow` wraps around it) tokenizes to a single `ErrOverwrite` token. -/
theorem tokenize_single_err (lvl : OwsqlErrorLevel) (esc : Char → Bool)
    (ov : BidiMap Str Str) (em : BidiMap OwsqlError Str) (m : Str)
    (hm : NonWs m) (hmne : m ≠ [])
    (hov : ov.containReverse m = false) (hem : em.containReverse m = true) :
    tokenize (' ' :: m ++ [' ']) esc ov BidiMap.empty em lvl
      = .ok [.ErrOverwrite m] := by
  have hwsSingle : AllWs [' '] := by intro c hc; simp at hc; simp [hc]
  obtain ⟨f, hf⟩ : ∃ f, (' ' :: m ++ [' ']).length + 1 = f + 1 :=
    ⟨(' ' :: m ++ [' ']).length, rfl⟩
  have hstep := tokenizeOuter_step_errph lvl esc ov BidiMap.empty em f
    [' '] m [' '] [] hwsSingle hm hmne
    (by intro d hd; simp only [List.head?_cons, Option.some.injEq] at hd
        rw [← hd]; rfl)
    hov hem
  have hdone := tokenizeOuter_allWs lvl esc ov BidiMap.empty em f [' ']
    ([] ++ [TokenType.ErrOverwrite m]) hwsSingle
  unfold tokenize
  rw [hf]
  rw [show ' ' :: m ++ [' '] = [' '] ++ (m ++ [' ']) by simp]
  rw [hstep, hdone]
  simp

/-- The composed query `ow(f) + v + ow(g)` (with `v` decomposed into its first
word and its further whitespace/word chunks) tokenizes to fragment
placeholder, quoted escaped raw text, fragment placeholder. -/
theorem tokenize_compose (lvl : OwsqlErrorLevel) (esc : Char → Bool)
    (ov : BidiMap Str Str) (em : BidiMap OwsqlError Str)
    (m0 m1 w : Str) (chunks : List (Str × Str))
    (hm0 : NonWs m0) (hm0ne : m0 ≠ []) (hm0ov : ov.containReverse m0 = true)
    (hm1 : NonWs m1) (hm1ne : m1 ≠ []) (hm1ov : ov.containReverse m1 = true)
    (hw : WordOk ov em w) (hch : ∀ p ∈ chunks, ChunkOk ov em p) :
    tokenize ((' ' :: m0 ++ [' ']) ++ (w ++ joinChunks chunks) ++ (' ' :: m1 ++ [' ']))
        esc ov BidiMap.empty em lvl
      = .ok [.Overwrite m0,
             .String ('\'' :: escapeString esc (w ++ joinChunks chunks) ++ ['\'']),
             .Overwrite m1] := by
  unfold tokenize
  refine tokenizeOuter_compose lvl esc ov em m0 m1 w chunks hm0 hm0ne hm0ov
    hm1 hm1ne hm1ov hw hch _ [] ?_
  have hj := joinChunks_length_ge chunks
    (fun p hp => ⟨(hch p hp).2.1, (hch p hp).2.2.2.1⟩)
  have hm0len : 1 ≤ m0.length := List.length_pos.mpr hm0ne
  have hm1len : 1 ≤ m1.length := List.length_pos.mpr hm1ne
  have hwlen : 1 ≤ w.length := List.length_pos.mpr hw.2.1
  simp only [List.length_append, List.length_cons]
  omega

/-! ## Claim theorems -/

/-- Claim C3, counterexample: `entry_or_insert` consults only the forward
side.  Inserting `(2, 5)` after `(1, 5)` is not a no-op even though the
reverse side already contains `5`; it leaves two forward pairs with the same
value (forward not injective) and silently rebinds the reverse entry of `5`
to `2`, so the forward pair `(1, 5)` no longer has `(5, 1)` in reverse. -/
theorem claim3_counterexample :
    ((BidiMap.empty : BidiMap Nat Nat).entryOrInsert 1 5).entryOrInsert 2 5
        ≠ (BidiMap.empty : BidiMap Nat Nat).entryOrInsert 1 5
    ∧ (1, 5) ∈ (((BidiMap.empty : BidiMap Nat Nat).entryOrInsert 1 5).entryOrInsert 2 5).key_value
    ∧ (2, 5) ∈ (((BidiMap.empty : BidiMap Nat Nat).entryOrInsert 1 5).entryOrInsert 2 5).key_value
    ∧ (((BidiMap.empty : BidiMap Nat Nat).entryOrInsert 1 5).entryOrInsert 2 5).getReverse 5
        = some 2 := by
  decide

/-- Claim C3 (amended): `entry_or_insert` is a no-op exactly when the forward
side already contains the key (the reverse side is not consulted, and an
insertion whose value collides on the reverse side overwrites that reverse
entry); provided every inserted value is fresh on the reverse side, the
registry keeps both directions paired, and pairing implies that every forward
pair has its mirror in reverse and that both directions are injective. -/
theorem claim3_insert_if_absent {α β : Type} [DecidableEq α] [DecidableEq β] :
    (∀ (m : BidiMap α β) (a : α) (b : β),
      m.contain a = true → m.entryOrInsert a b = m) ∧
    (∀ (m : BidiMap α β) (a : α) (b : β),
      m.Paired → m.containReverse b = false → (m.entryOrInsert a b).Paired) ∧
    (∀ m : BidiMap α β, m.Paired →
      (∀ p ∈ m.key_value, (p.2, p.1) ∈ m.value_key) ∧
      (∀ p q, p ∈ m.key_value → q ∈ m.key_value → p.2 = q.2 → p.1 = q.1) ∧
      (∀ p q, p ∈ m.value_key → q ∈ m.value_key → p.2 = q.2 → p.1 = q.1)) := by
  refine ⟨?_, ?_, ?_⟩
  · intro m a b h
    simp only [BidiMap.contain, BidiMap.get] at h
    simp [BidiMap.entryOrInsert, h]
  · intro m a b hp hrev
    by_cases hc : (assocLookup m.key_value a).isSome = true
    · simp [BidiMap.entryOrInsert, hc]
      exact hp
    · have hcn : assocLookup m.key_value a = none := by
        cases hg : assocLookup m.key_value a with
        | none => rfl
        | some v => simp [hg] at hc
      have hrn : assocLookup m.value_key b = none := by
        cases hg : assocLookup m.value_key b with
        | none => rfl
        | some v => simp [BidiMap.containReverse, BidiMap.getReverse, hg] at hrev
      have hent : m.entryOrInsert a b
          = ⟨assocInsert m.key_value a b, assocInsert m.value_key b a⟩ := by
        simp [BidiMap.entryOrInsert, hcn]
      rw [hent]
      constructor
      · intro p hpmem
        rcases List.mem_cons.mp hpmem with hpa | hpmem'
        · subst hpa
          exact assocLookup_insert_self _ _ _
        · have hpm : p ∈ m.key_value := mem_of_mem_assocErase _ _ _ hpmem'
          have hlook := hp.1 p hpm
          have hpb : p.2 ≠ b := by
            intro hc2
            rw [hc2] at hlook
            rw [hrn] at hlook
            cases hlook
          rw [assocLookup_insert_ne _ _ hpb]
          exact hlook
      · intro q hqmem
        rcases List.mem_cons.mp hqmem with hqa | hqmem'
        · subst hqa
          exact assocLookup_insert_self _ _ _
        · have hqm : q ∈ m.value_key := mem_of_mem_assocErase _ _ _ hqmem'
          have hlook := hp.2 q hqm
          have hqa' : q.2 ≠ a := by
            intro hc2
            rw [hc2] at hlook
            rw [hcn] at hlook
            cases hlook
          rw [assocLookup_insert_ne _ _ hqa']
          exact hlook
  · intro m hp
    refine ⟨?_, ?_, ?_⟩
    · intro p hpm
      exact mem_of_assocLookup_some _ _ _ (hp.1 p hpm)
    · intro p q hpm hqm hpq
      have h1 := hp.1 p hpm
      have h2 := hp.1 q hqm
      rw [hpq] at h1
      rw [h1] at h2
      exact (Option.some.injEq _ _).mp h2
    · intro p q hpm hqm hpq
      have h1 := hp.2 p hpm
      have h2 := hp.2 q hqm
      rw [hpq] at h1
      rw [h1] at h2
      exact (Option.some.injEq _ _).mp h2

/-- Claim C3, witness: the amended theorem applied at concrete registries —
a repeated key really is a no-op, and a fresh-value insertion into a
well-paired registry stays paired. -/
theorem claim3_witness :
    (((BidiMap.empty : BidiMap Nat Nat).entryOrInsert 1 5).entryOrInsert 1 7
        = (BidiMap.empty : BidiMap Nat Nat).entryOrInsert 1 5)
    ∧ BidiMap.Paired ((BidiMap.empty : BidiMap Nat Nat).entryOrInsert 1 5) :=
  ⟨claim3_insert_if_absent.1 _ 1 7 (by decide),
   claim3_insert_if_absent.2.1 BidiMap.empty 1 5 (by decide) (by decide)⟩

/-- Claim C4: the literal validator (driven by `consume_string`) rejects the
three unbalanced fragments and accepts the four balanced ones (at the
`Develop` default level, where the failure collapses to the registered
`"invalid literal"` message); a doubled quote inside a quoted run is consumed
verbatim without terminating the string, and reaching end of input without a
terminator is the `endless` (unterminated string) error. -/
theorem claim4_literal_validator_cases :
    checkValidLiteral (str "O'Reilly") .Develop
        = .error (.Message (str "invalid literal"))
    ∧ checkValidLiteral (str "O\"Reilly") .Develop
        = .error (.Message (str "invalid literal"))
    ∧ checkValidLiteral (str "'O'Reilly'") .Develop
        = .error (.Message (str "invalid literal"))
    ∧ checkValidLiteral (str "'O''Reilly'") .Develop = .ok ()
    ∧ checkValidLiteral (str "'O\"Reilly'") .Develop = .ok ()
    ∧ checkValidLiteral (str "\"O'Reilly\"") .Develop = .ok ()
    ∧ checkValidLiteral (str "'Alice', 'Bob'") .Develop = .ok ()
    ∧ consumeString .Develop '\'' (str "'O''Reilly'") = (.ok (str "'O''Reilly'"), [])
    ∧ consumeString .Develop '\'' (str "'O") = (.error (.Message (str "endless")), []) := by
  decide

/-- Claim C10: `Row::get` returns `none` exactly when the column is absent or
present with a SQL `NULL` value; in particular a column inserted as `NULL` is
indistinguishable from a missing column through `get`. -/
theorem claim10_row_get_none :
    (∀ (r : Row) (k : Str),
      r.get k = none ↔ (assocLookup r.value k = none ∨ assocLookup r.value k = some none))
    ∧ (∀ (r : Row) (k : Str), (r.insert k none).get k = none) := by
  constructor
  · intro r k
    unfold Row.get
    cases h : assocLookup r.value k with
    | none => simp
    | some v =>
      cases v with
      | none => simp
      | some s => simp

  · intro r k
    unfold Row.get Row.insert
    rw [assocLookup_insert_self]

/-- Claim C7: on a single connection, `ow(x)` twice returns the same
placeholder string — a successfully registered fragment (or a deferred
error) never changes its placeholder. -/
theorem claim7_ow_idempotent (conn : Connection) (x : Str) :
    ((conn.ow x).2.ow x).1 = (conn.ow x).1 := by
  rcases h : checkValidLiteral x conn.errorLevel with e | u
  · -- invalid fragment: both calls resolve the same deferred error
    by_cases hc : conn.errorMsg.contain e = true
    · rw [Connection.ow_error_contain h hc, Connection.ow_error_contain h hc]
    · have hc' : conn.errorMsg.contain e = false := by
        revert hc; cases conn.errorMsg.contain e <;> simp
      rw [Connection.ow_error_fresh h hc']
      have h2 : checkValidLiteral x
          ({ conn with
              serialNumber := conn.serialNumber + 1
              errorMsg := conn.errorMsg.insert e (conn.mint conn.serialNumber)
            } : Connection).errorLevel = .error e := h
      rw [Connection.ow_error_contain h2 (BidiMap.contain_insert_self _ _ _)]
      simp [BidiMap.get_insert_self _ hc']
  · cases u
    by_cases hc : conn.overwrite.contain x = true
    · rw [Connection.ow_ok_contain h hc, Connection.ow_ok_contain h hc]
    · have hc' : conn.overwrite.contain x = false := by
        revert hc; cases conn.overwrite.contain x <;> simp
      rw [Connection.ow_ok_fresh h hc']
      have h2 : checkValidLiteral x
          ({ conn with
              serialNumber := conn.serialNumber + 1
              overwrite := conn.overwrite.insert x (conn.mint conn.serialNumber)
            } : Connection).errorLevel = .ok () := h
      rw [Connection.ow_ok_contain h2 (BidiMap.contain_insert_self _ _ _)]
      simp [BidiMap.get_insert_self _ hc']

/-- Claim C9: at `Develop` level the validator failure collapses to the
fragment-independent `Message "invalid literal"`, so `ow` on two distinct
invalid fragments returns the identical error placeholder — deferred errors
are keyed by the constructed error value, not by the offending fragment. -/
theorem claim9_develop_collapses (conn : Connection) (f1 f2 : Str)
    (e1 e2 : OwsqlError)
    (hlvl : conn.errorLevel = .Develop)
    (h1 : checkValidLiteral f1 conn.errorLevel = .error e1)
    (h2 : checkValidLiteral f2 conn.errorLevel = .error e2)
    (_hne : f1 ≠ f2) :
    ((conn.ow f1).2.ow f2).1 = (conn.ow f1).1 := by
  have he1 : e1 = .Message (str "invalid literal") :=
    checkValidLiteral_error_develop f1 e1 (hlvl ▸ h1)
  have he2 : e2 = .Message (str "invalid literal") :=
    checkValidLiteral_error_develop f2 e2 (hlvl ▸ h2)
  have h2' : checkValidLiteral f2 conn.errorLevel = .error e1 := by
    rw [h2, he2, he1]
  by_cases hc : conn.errorMsg.contain e1 = true
  · rw [Connection.ow_error_contain h1 hc, Connection.ow_error_contain h2' hc]
  · have hc' : conn.errorMsg.contain e1 = false := by
      revert hc; cases conn.errorMsg.contain e1 <;> simp
    rw [Connection.ow_error_fresh h1 hc']
    have h2'' : checkValidLiteral f2
        ({ conn with
            serialNumber := conn.serialNumber + 1
            errorMsg := conn.errorMsg.insert e1 (conn.mint conn.serialNumber)
          } : Connection).errorLevel = .error e1 := h2'
    rw [Connection.ow_error_contain h2'' (BidiMap.contain_insert_self _ _ _)]
    simp [BidiMap.get_insert_self _ hc']

/-- Claim C9, witness: on a fresh `Develop`-level connection, the invalid
fragments `O'Reilly` and `"x` get the same placeholder. -/
theorem claim9_witness :
    ((conn0.ow (str "O'Reilly")).2.ow (str "\"x")).1 = (conn0.ow (str "O'Reilly")).1 :=
  claim9_develop_collapses conn0 (str "O'Reilly") (str "\"x")
    (.Message (str "invalid literal")) (.Message (str "invalid literal"))
    rfl (by decide) (by decide) (by decide)

/-- Claim C6, counterexample: `"042"` parses as the 64-bit integer `42`, yet
`int` registers the input string verbatim — the canonical form `"42"` is not
in the overwrite registry, `"042"` is. -/
theorem claim6_counterexample :
    parseI64 (str "042") = some 42
    ∧ (conn0.int (str "042")).2.overwrite.get (str "42") = none
    ∧ (conn0.int (str "042")).2.overwrite.get (str "042") = some (mintDemo 0) := by
  decide

/-- Claim C6 (amended): when the input's string form parses as a signed
64-bit integer, `int` registers that string form verbatim (not the integer's
canonical spelling — `int(42)` and `int("42")` coincide because both
stringify to `"42"`, but e.g. `"042"` gets its own entry) and returns its
placeholder wrapped in spaces; when it does not parse, `int` registers the
`"non integer"` error built at the connection's error level and returns that
error's placeholder. -/
theorem claim6_int_verbatim :
    (∀ (conn : Connection) (v : Str) (n : Int), parseI64 v = some n →
      ∃ ph, (conn.int v).1 = ' ' :: ph ++ [' ']
        ∧ (conn.int v).2.overwrite.get v = some ph)
    ∧ (∀ (conn : Connection) (v : Str), parseI64 v = none →
      ∃ ph, (conn.int v).1 = ' ' :: ph ++ [' ']
        ∧ (conn.int v).2.errorMsg.get
            ((exceptErr (OwsqlError.new conn.errorLevel (str "non integer") v)).getD .AnyError)
          = some ph) := by
  constructor
  · intro conn v n h
    have hs : (parseI64 v).isSome = true := by rw [h]; rfl
    by_cases hc : conn.overwrite.contain v = true
    · obtain ⟨ph, hph⟩ : ∃ ph, conn.overwrite.get v = some ph := by
        cases hg : conn.overwrite.get v with
        | none => rw [BidiMap.contain, hg] at hc; cases hc
        | some w => exact ⟨w, rfl⟩
      exact ⟨ph, by simp [Connection.int, hs, hc, hph],
        by simp [Connection.int, hs, hc, hph]⟩
    · have hc' : conn.overwrite.contain v = false := by
        revert hc; cases conn.overwrite.contain v <;> simp
      refine ⟨conn.mint conn.serialNumber, ?_, ?_⟩
      · simp [Connection.int, hs, hc', Connection.mintPh,
          BidiMap.get_insert_self _ hc']
      · simp [Connection.int, hs, hc', Connection.mintPh,
          BidiMap.get_insert_self _ hc']
  · intro conn v h
    have hs : (parseI64 v).isSome = false := by rw [h]; rfl
    set e := (exceptErr (OwsqlError.new conn.errorLevel (str "non integer") v)).getD .AnyError with he
    by_cases hc : conn.errorMsg.contain e = true
    · obtain ⟨ph, hph⟩ : ∃ ph, conn.errorMsg.get e = some ph := by
        cases hg : conn.errorMsg.get e with
        | none => rw [BidiMap.contain, hg] at hc; cases hc
        | some w => exact ⟨w, rfl⟩
      exact ⟨ph, by simp [Connection.int, hs, ← he, hc, hph],
        by simp [Connection.int, hs, ← he, hc, hph]⟩
    · have hc' : conn.errorMsg.contain e = false := by
        revert hc; cases conn.errorMsg.contain e <;> simp
      refine ⟨conn.mint conn.serialNumber, ?_, ?_⟩
      · simp [Connection.int, hs, ← he, hc', Connection.mintPh,
          BidiMap.get_insert_self _ hc']
      · simp [Connection.int, hs, ← he, hc', Connection.mintPh,
          BidiMap.get_insert_self _ hc']

/-- Claim C6, witness: the amended theorem applied to both a parsing and a
non-parsing input on a fresh connection. -/
theorem claim6_witness :
    (∃ ph, (conn0.int (str "42")).1 = ' ' :: ph ++ [' ']
      ∧ (conn0.int (str "42")).2.overwrite.get (str "42") = some ph)
    ∧ (∃ ph, (conn0.int (str "42 or 1=1; --")).1 = ' ' :: ph ++ [' ']
      ∧ (conn0.int (str "42 or 1=1; --")).2.errorMsg.get
          ((exceptErr (OwsqlError.new conn0.errorLevel (str "non integer")
              (str "42 or 1=1; --"))).getD .AnyError)
        = some ph) :=
  ⟨claim6_int_verbatim.1 conn0 (str "42") 42 (by decide),
   claim6_int_verbatim.2 conn0 (str "42 or 1=1; --") (by decide)⟩

/-- `consume_string` over a quoted run whose interior never mentions the
quote character consumes the whole run verbatim. -/
theorem consumeStringLoop_clean (lvl : OwsqlErrorLevel) (q : Char) :
    ∀ (v acc : Str), (∀ c ∈ v, c ≠ q) →
      consumeStringLoop lvl q acc (v ++ [q]) = (.ok (acc ++ v ++ [q]), []) := by
  intro v
  induction v with
  | nil =>
    intro acc _
    simp [consumeStringLoop]
  | cons c v' ih =>
    intro acc hv
    have hc : c ≠ q := hv c (List.mem_cons_self _ _)
    have ih' := ih (acc ++ [c]) fun x hx => hv x (List.mem_cons_of_mem _ hx)
    have hstep : consumeStringLoop lvl q acc (c :: (v' ++ [q]))
        = consumeStringLoop lvl q (acc ++ [c]) (v' ++ [q]) := by
      rw [consumeStringLoop.eq_def]
      simp [hc]
    simp only [List.cons_append]
    rw [hstep, ih']
    simp

/-- Claim C5, counterexample: after `add_allowlist(["O'Reilly"])` the
overwrite registry does not contain `'O''Reilly'` (the value wrapped in
quotes with its interior quote doubled, as the claim demands); it contains
`'O'`, the prefix at which `consume_string` stopped — no doubling happens. -/
theorem claim5_counterexample :
    escapeForAllowlist (str "O'Reilly") = str "'O'"
    ∧ (conn0.addAllowlist [str "O'Reilly"]).overwrite.get (str "'O''Reilly'") = none
    ∧ (conn0.addAllowlist [str "O'Reilly"]).overwrite.get (str "'O'")
        = some (mintDemo 0) := by
  decide

/-- Claim C5 (amended): the registered escaped form is
`consume_string('\'')` applied to the single-quote-wrapped value — for a
value without interior single quotes this is exactly `'value'` (no doubling
is ever performed; a value with a lone interior quote is truncated at it).
For every allowlisted `v` (quote-free) the escaped form is in `overwrite` and
`allowlist(v)` returns its placeholder wrapped in single spaces; for every
`v` outside the allowlist set, `allowlist(v)` defers the `"deny value"`
error built at the connection's error level and returns that error's
placeholder. -/
theorem claim5_allowlist :
    (∀ v : Str, (∀ c ∈ v, c ≠ '\'') →
      escapeForAllowlist v = '\'' :: v ++ ['\''])
    ∧ (∀ (conn : Connection) (v : Str), (∀ c ∈ v, c ≠ '\'') →
      ∃ ph, (conn.addAllowlist [v]).overwrite.get ('\'' :: v ++ ['\'']) = some ph
        ∧ ((conn.addAllowlist [v]).allowlistOw v).1 = ' ' :: ph ++ [' '])
    ∧ (∀ (conn : Connection) (v : Str), conn.isAllowlist v = false →
      ∃ ph, (conn.allowlistOw v).1 = ' ' :: ph ++ [' ']
        ∧ (conn.allowlistOw v).2.errorMsg.get
            ((exceptErr (OwsqlError.new conn.errorLevel (str "deny value") v)).getD .AnyError)
          = some ph) := by
  have hesc : ∀ v : Str, (∀ c ∈ v, c ≠ '\'') →
      escapeForAllowlist v = '\'' :: v ++ ['\''] := by
    intro v hv
    have h1 : escapeForAllowlist v
        = exceptGetD (consumeStringLoop .Develop '\'' ['\''] (v ++ ['\''])).1 := rfl
    rw [h1, consumeStringLoop_clean .Develop '\'' v ['\''] hv]
    simp [exceptGetD]
  refine ⟨hesc, ?_, ?_⟩
  · intro conn v hv
    have hadd : conn.addAllowlist [v]
        = { conn with
            allowlist := v :: conn.allowlist
            serialNumber := conn.serialNumber + 1
            overwrite := conn.overwrite.insert (escapeForAllowlist v)
              (conn.mint conn.serialNumber) } := by
      simp [Connection.addAllowlist, Connection.mintPh]
    have hmem : (conn.addAllowlist [v]).isAllowlist v = true := by
      rw [hadd]
      simp [Connection.isAllowlist]
    obtain ⟨ph, hph⟩ : ∃ ph,
        (conn.addAllowlist [v]).overwrite.get (escapeForAllowlist v) = some ph := by
      have hcont : ((conn.addAllowlist [v]).overwrite).contain (escapeForAllowlist v)
          = true := by
        rw [hadd]
        exact BidiMap.contain_insert_self _ _ _
      cases hg : (conn.addAllowlist [v]).overwrite.get (escapeForAllowlist v) with
      | none => rw [BidiMap.contain, hg] at hcont; cases hcont
      | some w => exact ⟨w, rfl⟩
    refine ⟨ph, ?_, ?_⟩
    · rw [← hesc v hv]
      exact hph
    · simp [Connection.allowlistOw, hmem, hph]
  · intro conn v hal
    set e := (exceptErr (OwsqlError.new conn.errorLevel (str "deny value") v)).getD .AnyError with he
    by_cases hc : conn.errorMsg.contain e = true
    · obtain ⟨ph, hph⟩ : ∃ ph, conn.errorMsg.get e = some ph := by
        cases hg : conn.errorMsg.get e with
        | none => rw [BidiMap.contain, hg] at hc; cases hc
        | some w => exact ⟨w, rfl⟩
      exact ⟨ph, by simp [Connection.allowlistOw, hal, ← he, hc, hph],
        by simp [Connection.allowlistOw, hal, ← he, hc, hph]⟩
    · have hc' : conn.errorMsg.contain e = false := by
        revert hc; cases conn.errorMsg.contain e <;> simp
      refine ⟨conn.mint conn.serialNumber, ?_, ?_⟩
      · simp [Connection.allowlistOw, hal, ← he, hc', Connection.mintPh,
          BidiMap.get_insert_self _ hc']
      · simp [Connection.allowlistOw, hal, ← he, hc', Connection.mintPh,
          BidiMap.get_insert_self _ hc']

/-- Claim C5, witness: the amended theorem applied to `Alice` (allowlisted)
and to a value outside the allowlist. -/
theorem claim5_witness :
    (∃ ph, (conn0.addAllowlist [str "Alice"]).overwrite.get ('\'' :: str "Alice" ++ ['\''])
        = some ph
      ∧ ((conn0.addAllowlist [str "Alice"]).allowlistOw (str "Alice")).1
        = ' ' :: ph ++ [' '])
    ∧ (∃ ph, (conn0.allowlistOw (str "Alice OR 1=1; --")).1 = ' ' :: ph ++ [' ']
      ∧ (conn0.allowlistOw (str "Alice OR 1=1; --")).2.errorMsg.get
          ((exceptErr (OwsqlError.new conn0.errorLevel (str "deny value")
              (str "Alice OR 1=1; --"))).getD .AnyError)
        = some ph) :=
  ⟨claim5_allowlist.2.1 conn0 (str "Alice") (by decide),
   claim5_allowlist.2.2 conn0 (str "Alice OR 1=1; --") (by decide)⟩

/-- Claim C8, counterexample: on the empty query the rewrite succeeds with
the empty string, which does not end with a trailing space. -/
theorem claim8_counterexample :
    conn0.actualSql [] = .ok [] ∧ ¬(([] : Str).getLast? = some ' ') := by
  decide

/-- Claim C8 (amended): every successful rewrite output either is empty or
ends with a trailing space (a single space is appended after each emitted
unit); the empty output occurs exactly for inputs with no token — in
particular the empty and the all-whitespace query yield the empty string,
not a trailing space. -/
theorem claim8_trailing_space :
    (∀ (conn : Connection) (q res : Str),
      conn.actualSql q = .ok res → res = [] ∨ res.getLast? = some ' ')
    ∧ (∀ (conn : Connection) (q : Str), AllWs q → conn.actualSql q = .ok []) := by
  constructor
  · intro conn q res h
    unfold Connection.actualSql convertToValidSql at h
    cases ht : tokenize q (mustEscapeFor conn.dbType) conn.overwrite
        conn.whitespaceAround conn.errorMsg conn.errorLevel with
    | error e => rw [ht] at h; cases h
    | ok tokens =>
      rw [ht] at h
      exact convertFold_trailing _ _ tokens [] res (Or.inl rfl) h
  · intro conn q hws
    unfold Connection.actualSql convertToValidSql
    rw [tokenize_allWs q _ _ _ _ _ hws]
    rfl

/-- Claim C8, witness: the amended theorem applied to a concrete raw query
whose rewrite is `'x' `, which indeed ends with a space. -/
theorem claim8_witness :
    str "'x' " = [] ∨ (str "'x' ").getLast? = some ' ' :=
  claim8_trailing_space.1 conn0 (str "x") (str "'x' ") (by decide)

/-- Claim C1: a fragment failing literal validation does not raise at
`ow`-time: `ow` returns the error's freshly minted placeholder wrapped in
spaces, registers the error in `error_msg`, and the next `actual_sql` (and so
`execute`/`iterate`, which run the same `convert_to_valid_syntax` first) on a
query containing that placeholder aborts the rewrite at the error
placeholder, failing with the registered error recovered via
`error_msg.get_reverse`. -/
theorem claim1_ow_defers (conn : Connection) (f : Str) (e : OwsqlError)
    (hfail : checkValidLiteral f conn.errorLevel = .error e)
    (hfresh : conn.errorMsg.contain e = false)
    (hmne : conn.mint conn.serialNumber ≠ [])
    (hmws : NonWs (conn.mint conn.serialNumber))
    (hmov : conn.overwrite.containReverse (conn.mint conn.serialNumber) = false)
    (hwa : conn.whitespaceAround = BidiMap.empty) :
    (conn.ow f).1 = ' ' :: conn.mint conn.serialNumber ++ [' ']
    ∧ (conn.ow f).2.errorMsg.get e = some (conn.mint conn.serialNumber)
    ∧ (conn.ow f).2.actualSql (conn.ow f).1 = .error e := by
  rw [Connection.ow_error_fresh hfail hfresh]
  refine ⟨rfl, BidiMap.get_insert_self _ hfresh, ?_⟩
  unfold Connection.actualSql convertToValidSql
  dsimp only
  rw [hwa]
  rw [tokenize_single_err conn.errorLevel (mustEscapeFor conn.dbType)
    conn.overwrite (conn.errorMsg.insert e (conn.mint conn.serialNumber))
    (conn.mint conn.serialNumber) hmws hmne hmov
    (BidiMap.containReverse_insert_self _ hfresh)]
  simp [convertFold, BidiMap.getReverse_insert_self _ hfresh]

/-- Claim C1, witness: on a fresh `Develop` connection, `ow("O'Reilly")`
returns the minted placeholder, the collapsed `invalid literal` error is
registered under it, and `actual_sql` of the returned string fails with that
error. -/
theorem claim1_witness :
    (conn0.ow (str "O'Reilly")).1 = ' ' :: conn0.mint conn0.serialNumber ++ [' ']
    ∧ (conn0.ow (str "O'Reilly")).2.errorMsg.get (.Message (str "invalid literal"))
        = some (conn0.mint conn0.serialNumber)
    ∧ (conn0.ow (str "O'Reilly")).2.actualSql (conn0.ow (str "O'Reilly")).1
        = .error (.Message (str "invalid literal")) :=
  claim1_ow_defers conn0 (str "O'Reilly") (.Message (str "invalid literal"))
    (by decide) (by decide) (by decide) (by decide) (by decide) rfl

/-- Claim C2, counterexample: with `f = SELECT`, `g = FROM` and the raw value
`v = "x "` (registered nowhere), the rewrite yields `SELECT 'x' FROM ` — not
the claimed `" SELECT 'x ' FROM "`: there is no leading space before `f`, and
the edge whitespace of `v` is dropped rather than escaped. -/
theorem claim2_counterexample :
    ((conn0.ow (str "SELECT")).2.ow (str "FROM")).2.actualSql
        ((conn0.ow (str "SELECT")).1 ++ str "x " ++ ((conn0.ow (str "SELECT")).2.ow (str "FROM")).1)
      = .ok (str "SELECT 'x' FROM ")
    ∧ str "SELECT 'x' FROM " ≠ str " SELECT 'x ' FROM " := by
  decide

/-- Claim C2 (amended): for fragments `f ≠ g` passing the validator and fresh
to the registry, and a raw value `v` with no leading or trailing whitespace
(given as its first word `w` plus whitespace/word chunks) none of whose
whitespace-delimited words is a registered placeholder,
`actual_sql(ow(f) + v + ow(g))` equals `f ⧺ " '" ⧺ escape(v) ⧺ "' " ⧺ g ⧺ " "`
— `f` and `g` verbatim, `v` quote-wrapped and escaped by the dialect
predicate, exactly one space after each emitted unit (and none before the
first); for `v` with edge whitespace the escaped text is `v` trimmed, as the
counterexample shows. -/
theorem claim2_compose (conn : Connection) (f g w : Str)
    (chunks : List (Str × Str))
    (hwa : conn.whitespaceAround = BidiMap.empty)
    (hf : checkValidLiteral f conn.errorLevel = .ok ())
    (hg : checkValidLiteral g conn.errorLevel = .ok ())
    (hfg : g ≠ f)
    (hcf : conn.overwrite.contain f = false)
    (hcg : conn.overwrite.contain g = false)
    (hm0ne : conn.mint conn.serialNumber ≠ [])
    (hm0ws : NonWs (conn.mint conn.serialNumber))
    (hm1ne : conn.mint (conn.serialNumber + 1) ≠ [])
    (hm1ws : NonWs (conn.mint (conn.serialNumber + 1)))
    (hmm : conn.mint conn.serialNumber ≠ conn.mint (conn.serialNumber + 1))
    (hww : WordOk ((conn.ow f).2.ow g).2.overwrite ((conn.ow f).2.ow g).2.errorMsg w)
    (hch : ∀ p ∈ chunks,
      ChunkOk ((conn.ow f).2.ow g).2.overwrite ((conn.ow f).2.ow g).2.errorMsg p) :
    ((conn.ow f).2.ow g).2.actualSql
        ((conn.ow f).1 ++ (w ++ joinChunks chunks) ++ ((conn.ow f).2.ow g).1)
      = .ok (f ++ [' ']
          ++ ('\'' :: escapeString (mustEscapeFor conn.dbType) (w ++ joinChunks chunks) ++ ['\''])
          ++ [' '] ++ g ++ [' ']) := by
  have how1 := Connection.ow_ok_fresh hf hcf
  rw [how1] at hww hch ⊢
  dsimp only at hww hch ⊢
  have hg1 : checkValidLiteral g
      ({ conn with
          serialNumber := conn.serialNumber + 1
          overwrite := conn.overwrite.insert f (conn.mint conn.serialNumber)
        } : Connection).errorLevel = .ok () := hg
  have hcg1 : ({ conn with
      serialNumber := conn.serialNumber + 1
      overwrite := conn.overwrite.insert f (conn.mint conn.serialNumber)
    } : Connection).overwrite.contain g = false := by
    dsimp only
    rw [BidiMap.contain_insert_ne _ hcf hfg]
    exact hcg
  have how2 := Connection.ow_ok_fresh hg1 hcg1
  rw [how2] at hww hch ⊢
  dsimp only at hww hch ⊢
  have hm1ov : ((conn.overwrite.insert f (conn.mint conn.serialNumber)).insert g
      (conn.mint (conn.serialNumber + 1))).containReverse
      (conn.mint (conn.serialNumber + 1)) = true :=
    BidiMap.containReverse_insert_self _ hcg1
  have hm0ov : ((conn.overwrite.insert f (conn.mint conn.serialNumber)).insert g
      (conn.mint (conn.serialNumber + 1))).containReverse
      (conn.mint conn.serialNumber) = true := by
    rw [BidiMap.containReverse_insert_ne hcg1 hmm]
    exact BidiMap.containReverse_insert_self _ hcf
  have hgr0 : ((conn.overwrite.insert f (conn.mint conn.serialNumber)).insert g
      (conn.mint (conn.serialNumber + 1))).getReverse
      (conn.mint conn.serialNumber) = some f := by
    rw [BidiMap.getReverse_insert_ne hcg1 hmm]
    exact BidiMap.getReverse_insert_self _ hcf
  have hgr1 : ((conn.overwrite.insert f (conn.mint conn.serialNumber)).insert g
      (conn.mint (conn.serialNumber + 1))).getReverse
      (conn.mint (conn.serialNumber + 1)) = some g :=
    BidiMap.getReverse_insert_self _ hcg1
  unfold Connection.actualSql convertToValidSql
  dsimp only
  rw [hwa]
  rw [tokenize_compose conn.errorLevel (mustEscapeFor conn.dbType)
    ((conn.overwrite.insert f (conn.mint conn.serialNumber)).insert g
      (conn.mint (conn.serialNumber + 1)))
    conn.errorMsg (conn.mint conn.serialNumber) (conn.mint (conn.serialNumber + 1))
    w chunks hm0ws hm0ne hm0ov hm1ws hm1ne hm1ov hww hch]
  simp [convertFold, TokenType.unwrap, hgr0, hgr1]

/-- Claim C2, witness: the amended theorem at concrete inputs — the raw value
`O'Reilly x` (two words) between `ow("SELECT")` and `ow("FROM")` is emitted
as one quoted literal with the interior quote doubled by the SQLite escape
predicate. -/
theorem claim2_witness :
    ((conn0.ow (str "SELECT")).2.ow (str "FROM")).2.actualSql
        ((conn0.ow (str "SELECT")).1 ++ (str "O'Reilly" ++ joinChunks [([' '], str "x")])
          ++ ((conn0.ow (str "SELECT")).2.ow (str "FROM")).1)
      = .ok (str "SELECT" ++ [' ']
          ++ ('\'' :: escapeString (mustEscapeFor conn0.dbType)
                (str "O'Reilly" ++ joinChunks [([' '], str "x")]) ++ ['\''])
          ++ [' '] ++ str "FROM" ++ [' ']) :=
  claim2_compose conn0 (str "SELECT") (str "FROM") (str "O'Reilly")
    [([' '], str "x")] rfl (by decide) (by decide) (by decide) (by decide)
    (by decide) (by decide) (by decide) (by decide) (by decide) (by decide)
    (by decide) (by decide)

end Owsql
